import Mathlib

/-!
# Verification of the Shortest-Path-Visualizer core

This file embeds the core of `Miami-code-sample.py` in Lean 4: the graph
dictionary manipulated by the interactive shell, the mutation operations
(`add_place`, `add_route`, `remove_route`, `remove_place`) and the
shortest-path engine `dijkstra_shortest_path`, and proves the spec's claims
about them.

Python dictionaries are modelled as association lists whose insertion /
update / deletion operations (`dinsert`, `derase`) reproduce Python's
insertion-order semantics; a well-formedness predicate `WFG` captures the
fact that dictionary keys are unique.  Weights (Python floats holding exact
small values) are modelled as rationals, and `float('inf')` as `⊤` in
`WithTop ℚ`.  The `heapq` priority queue is modelled as a multiset of
`(distance, place)` pairs from which `popMin` removes the lexicographically
least element, matching `heapq.heappop` on tuples.  The two `while` loops
are modelled with an explicit fuel argument; exhausting the fuel yields the
distinguished error `DErr.fuelOut`, and a Python `KeyError` (a dictionary
lookup of a missing key) yields `DErr.keyError`.
-/

abbrev Place := String

/-- A Python dict modelled as an association list (in insertion order). -/
abbrev Dict (β : Type) := List (Place × β)

/-- Neighbor map of one place: neighbor ↦ weight. -/
abbrev NMap := Dict ℚ

/-- The graph dictionary: place ↦ neighbor map. -/
abbrev Graph := Dict NMap

/-- Dictionary lookup (first matching key, as in a Python dict). -/
def dlookup {β : Type} : Dict β → Place → Option β
  | [], _ => none
  | (k, v) :: rest, a => if k = a then some v else dlookup rest a

/-- Python dict assignment `d[a] = b`: update in place if the key exists
(keeping its position), otherwise append at the end. -/
def dinsert {β : Type} : Dict β → Place → β → Dict β
  | [], a, b => [(a, b)]
  | (k, v) :: rest, a, b =>
    if k = a then (k, b) :: rest else (k, v) :: dinsert rest a b

/-- Python `del d[a]` / `d.pop(a, None)`: drop the entry with key `a`. -/
def derase {β : Type} : Dict β → Place → Dict β
  | [], _ => []
  | (k, v) :: rest, a => if k = a then rest else (k, v) :: derase rest a

/-- Python `a in d`. -/
def memB {β : Type} (d : Dict β) (a : Place) : Bool := (dlookup d a).isSome

/-- Key uniqueness of a Python dict, at both levels of the graph dict. -/
def WFG (g : Graph) : Prop :=
  (g.map Prod.fst).Nodup ∧ ∀ p ∈ g, (p.2.map Prod.fst).Nodup

/-- Store invariant: every neighbor entry is mirrored with the same weight. -/
def SymmB (g : Graph) : Prop :=
  ∀ p ∈ g, ∀ e ∈ p.2, ((dlookup g e.1).bind fun m => dlookup m p.1) = some e.2

/-- Store invariant: every key of a neighbor map is a top-level key. -/
def ClosedB (g : Graph) : Prop :=
  ∀ p ∈ g, ∀ e ∈ p.2, (dlookup g e.1).isSome

/-- Store invariant: all edge weights are non-negative. -/
def NonnegB (g : Graph) : Prop :=
  ∀ p ∈ g, ∀ e ∈ p.2, 0 ≤ e.2

/-! ## The shortest-path engine (`dijkstra_shortest_path`, lines 5–30) -/

/-- Errors of the embedded engine: `keyError` models a Python `KeyError`
on a dictionary lookup of a missing key; `fuelOut` models a `while` loop
still running after the given number of iterations. -/
inductive DErr where
  | keyError
  | fuelOut
deriving DecidableEq

/-- The mutable state of the main loop: the heap `queue`, and the
`distances` and `previous_nodes` dictionaries. -/
structure DState where
  queue : List (ℚ × Place)
  dist : Dict (WithTop ℚ)
  prev : Dict (Option Place)

/-- Lexicographic order on heap entries: `heapq` pops the least
`(distance, node)` tuple, comparing distances first, then node strings. -/
def lexLE (a b : ℚ × Place) : Prop :=
  a.1 < b.1 ∨ (a.1 = b.1 ∧ a.2 ≤ b.2)

instance lexLE.dec (a b : ℚ × Place) : Decidable (lexLE a b) := by
  unfold lexLE; infer_instance

/-- Select the least entry (under `lexLE`) among `best` and the list. -/
def selMin : (ℚ × Place) → List (ℚ × Place) → (ℚ × Place)
  | best, [] => best
  | best, e :: rest => selMin (if lexLE best e then best else e) rest

/-- `heapq.heappop`: remove and return the least entry of the queue. -/
def popMin (q : List (ℚ × Place)) : Option ((ℚ × Place) × List (ℚ × Place)) :=
  match q with
  | [] => none
  | e :: rest =>
    let m := selMin e rest
    some (m, q.erase m)

/-- One pass of the `for neighbor, weight in graph[current_node].items()`
loop (lines 17–22): relax each neighbor of the popped node `u`, whose heap
distance is `d`.  A relaxation updates `distances[neighbor]` and
`previous_nodes[neighbor]` and pushes the new entry onto the queue. -/
def relaxAll (d : ℚ) (u : Place) : List (Place × ℚ) → DState → Except DErr DState
  | [], σ => .ok σ
  | (n, w) :: rest, σ =>
    match dlookup σ.dist n with
    | none => .error .keyError
    | some dn =>
      if ((d + w : ℚ) : WithTop ℚ) < dn then
        relaxAll d u rest
          ⟨σ.queue ++ [(d + w, n)],
           dinsert σ.dist n ((d + w : ℚ) : WithTop ℚ),
           dinsert σ.prev n (some u)⟩
      else
        relaxAll d u rest σ

/-- The `while queue:` loop (lines 13–22), with fuel.  Each iteration pops
the least entry; a stale entry (`current_distance > distances[current_node]`)
is skipped; otherwise the node's neighbors are relaxed. -/
def dloop (g : Graph) : Nat → DState → Except DErr DState
  | 0, σ =>
    match popMin σ.queue with
    | none => .ok σ
    | some _ => .error .fuelOut
  | fuel + 1, σ =>
    match popMin σ.queue with
    | none => .ok σ
    | some ((d, u), rest) =>
      match dlookup σ.dist u with
      | none => .error .keyError
      | some du =>
        if du < (d : WithTop ℚ) then
          dloop g fuel { σ with queue := rest }
        else
          match dlookup g u with
          | none => .error .keyError
          | some m =>
            match relaxAll d u m { σ with queue := rest } with
            | .error e => .error e
            | .ok σ' => dloop g fuel σ'

/-- The reconstruction loop `while current is not None:` (lines 24–27),
with fuel: walk `previous_nodes` backward from `end`, appending each
visited node to `shortest_path`. -/
def buildLoop (prev : Dict (Option Place)) : Nat → Option Place → List Place →
    Except DErr (List Place)
  | _, none, sp => .ok sp
  | 0, some _, _ => .error .fuelOut
  | fuel + 1, some c, sp =>
    match dlookup prev c with
    | none => .error .keyError
    | some pr => buildLoop prev fuel pr (sp ++ [c])

/-- Total number of neighbor entries of places outside `P` (the degrees
still unprocessed); with `P = []` this is the edge-entry count of `g`. -/
def degSum (g : Graph) (P : List Place) : Nat :=
  g.foldr (fun kv acc => if kv.1 ∈ P then acc else kv.2.length + acc) 0

/-- Fuel for the priority-queue loop: one initial push plus at most one
push per neighbor entry of the graph. -/
def dfuel (g : Graph) : Nat := 1 + degSum g []

/-- Fuel for the reconstruction loop: one step per place. -/
def walkFuel (g : Graph) : Nat := g.length + 1

/-- `{node: float('inf') for node in graph}` followed by
`distances[start] = 0`. -/
def initDist (g : Graph) (s : Place) : Dict (WithTop ℚ) :=
  dinsert (g.map fun kv => (kv.1, (⊤ : WithTop ℚ))) s 0

/-- `{node: None for node in graph}`. -/
def initPrev (g : Graph) : Dict (Option Place) :=
  g.map fun kv => (kv.1, (none : Option Place))

/-- Initial state: the queue holds `(0, start)`. -/
def initState (g : Graph) (s : Place) : DState :=
  ⟨[(0, s)], initDist g s, initPrev g⟩

/-- `dijkstra_shortest_path(graph, start, end)` (lines 5–30): run the
priority-queue loop, reconstruct the path by walking `previous_nodes`
backward from `end` and reversing, and return it with `distances[end]`. -/
def dijkstra_shortest_path (g : Graph) (s t : Place) :
    Except DErr (List Place × WithTop ℚ) :=
  match dloop g (dfuel g) (initState g s) with
  | .error e => .error e
  | .ok σ =>
    match buildLoop σ.prev (walkFuel g) (some t) [] with
    | .error e => .error e
    | .ok sp =>
      match dlookup σ.dist t with
      | none => .error .keyError
      | some dt => .ok (sp.reverse, dt)

/-! ## Paths and reachability (spec-side notions used in the claims) -/

/-- Total weight of a node sequence, when each consecutive pair is an edge
of `g` (`none` when a step is missing or the sequence is empty). -/
def pathW (g : Graph) : List Place → Option ℚ
  | [] => none
  | [_] => some 0
  | a :: b :: rest =>
    match dlookup g a with
    | none => none
    | some m =>
      match dlookup m b with
      | none => none
      | some w =>
        match pathW g (b :: rest) with
        | none => none
        | some r => some (w + r)

/-- A simple path from `s` to `t` of total weight `w`. -/
def SimplePath (g : Graph) (s t : Place) (p : List Place) (w : ℚ) : Prop :=
  p.head? = some s ∧ p.getLast? = some t ∧ p.Nodup ∧ pathW g p = some w

/-- Keys of the neighbor map of `v`. -/
def nbrKeys (g : Graph) (v : Place) : List Place :=
  match dlookup g v with
  | none => []
  | some m => m.map Prod.fst

/-- One step of the reachability closure: a set together with all
neighbors of its members. -/
def stepR (g : Graph) (S : List Place) : List Place :=
  S ++ S.foldr (fun v acc => nbrKeys g v ++ acc) []

/-- Places reachable from `s`: `g.length` rounds of the closure step
(enough, since a duplicate-free path visits each place at most once). -/
def reachSet (g : Graph) (s : Place) : List Place :=
  (stepR g)^[g.length] [s]

/-! ## The graph-store mutation operations (lines 47–103) -/

/-- `graph[a][b] = w` (a no-op if `a` is absent; in the modelled flows `a`
is always present, Python would raise `KeyError` otherwise). -/
def setEdge (g : Graph) (a b : Place) (w : ℚ) : Graph :=
  match dlookup g a with
  | none => g
  | some m => dinsert g a (dinsert m b w)

/-- `graph[a].pop-or-del b` (a no-op if `a` or the entry is absent). -/
def eraseEdge (g : Graph) (a b : Place) : Graph :=
  match dlookup g a with
  | none => g
  | some m => dinsert g a (derase m b)

/-- The two assignments of `add_route` (lines 99–100):
`graph[place1][place2] = distance; graph[place2][place1] = distance`. -/
def add_route_core (g : Graph) (a b : Place) (w : ℚ) : Graph :=
  setEdge (setEdge g a b w) b a w

/-- `add_route` (lines 91–103).  `select_place` only ever returns places
present in the graph (or `None`, upon which nothing happens), so the
mutation runs exactly when both places are present; the parsed distance
is the parameter `w` (a parse failure also leaves the graph unchanged). -/
def add_route (g : Graph) (a b : Place) (w : ℚ) : Graph :=
  if memB g a && memB g b then add_route_core g a b w else g

/-- `remove_route` (lines 78–89): when both places are present and
`place2 in graph[place1]`, delete both directed entries.  (When the graph
is symmetric the second `del` always finds its key; the total `eraseEdge`
leaves exactly the state Python leaves in every case.) -/
def remove_route (g : Graph) (a b : Place) : Graph :=
  if memB g a && memB g b then
    match dlookup g a with
    | none => g
    | some ma =>
      if (dlookup ma b).isSome then eraseEdge (eraseEdge g a b) b a else g
  else g

/-- `remove_place` (lines 68–76): pop the place, then pop it from every
remaining neighbor map. -/
def remove_place (g : Graph) (id : Place) : Graph :=
  if memB g id then (derase g id).map fun p => (p.1, derase p.2 id) else g

/-- `add_place` (lines 47–66): insert the new place with an empty neighbor
map unless it already exists, then for each entered `(neighbor, distance)`
pair whose neighbor exists in the current graph, store the edge in both
directions (a non-numeric distance leaves the graph unchanged, i.e. the
pair is simply absent from `routes`). -/
def add_place (g : Graph) (id : Place) (routes : List (Place × ℚ)) : Graph :=
  if memB g id then g
  else
    routes.foldl
      (fun acc nw => if memB acc nw.1 then add_route_core acc id nw.1 nw.2 else acc)
      (dinsert g id [])

/-- A mutation operation of the graph store. -/
inductive Op where
  | addPlaceOp (id : Place) (routes : List (Place × ℚ))
  | addRouteOp (a b : Place) (w : ℚ)
  | removeRouteOp (a b : Place)
  | removePlaceOp (id : Place)

/-- Apply a mutation operation. -/
def applyOp (g : Graph) : Op → Graph
  | .addPlaceOp id routes => add_place g id routes
  | .addRouteOp a b w => add_route g a b w
  | .removeRouteOp a b => remove_route g a b
  | .removePlaceOp id => remove_place g id

/-! ## The seed graph built in `main` (lines 126–132) -/

/-- The seed graph of `main`, in source order. -/
def mainGraph : Graph :=
  [("Jauhar", [("Gulshan", 5), ("Malir", 7)]),
   ("Gulshan", [("Jauhar", 5), ("Korangi", 10), ("Malir", 3)]),
   ("Korangi", [("Gulshan", 10), ("Malir", 4)]),
   ("Malir", [("Jauhar", 7), ("Gulshan", 3), ("Korangi", 4), ("Saddar", 8)]),
   ("Saddar", [("Malir", 8), ("Clifton", 6)]),
   ("Clifton", [("Saddar", 6), ("Defence", 4)]),
   ("Defence", [("Clifton", 4)])]

/-- A small graph with an isolated place `Z`, as in the spec's
unreachable-query scenario. -/
def isolatedGraph : Graph :=
  [("A", [("B", 1)]), ("B", [("A", 1)]), ("Z", [])]

instance WFG.dec (g : Graph) : Decidable (WFG g) := by
  unfold WFG; infer_instance

instance SymmB.dec (g : Graph) : Decidable (SymmB g) := by
  unfold SymmB; infer_instance

instance ClosedB.dec (g : Graph) : Decidable (ClosedB g) := by
  unfold ClosedB; infer_instance

instance NonnegB.dec (g : Graph) : Decidable (NonnegB g) := by
  unfold NonnegB; infer_instance

instance SimplePath.dec (g : Graph) (s t : Place) (p : List Place) (w : ℚ) :
    Decidable (SimplePath g s t p w) := by
  unfold SimplePath; infer_instance

/-- The core invariant of the priority-queue loop, relative to the ghost
list `P` of nodes already processed (popped with a non-stale entry), in
processing order.  `s` is the start node. -/
structure InvC (g : Graph) (s : Place) (P : List Place) (σ : DState) : Prop where
  kq : ∀ e ∈ σ.queue, (dlookup g e.2).isSome
  kd : ∀ v : Place, (dlookup σ.dist v).isSome ↔ (dlookup g v).isSome
  kp : ∀ v : Place, (dlookup σ.prev v).isSome ↔ (dlookup g v).isSome
  qge : ∀ e ∈ σ.queue, ∀ dv, dlookup σ.dist e.2 = some dv → dv ≤ (e.1 : WithTop ℚ)
  nn : ∀ v dv, dlookup σ.dist v = some dv → 0 ≤ dv
  s0 : dlookup σ.dist s = some 0
  p0 : dlookup σ.prev s = some none
  pfin : ∀ u ∈ P, ∃ q : ℚ, dlookup σ.dist u = some (q : WithTop ℚ)
  f1 : ∀ u ∈ P, ∀ du, dlookup σ.dist u = some du →
    ∀ e ∈ σ.queue, du ≤ (e.1 : WithTop ℚ)
  stale : ∀ u ∈ P, ∀ du, dlookup σ.dist u = some du →
    ∀ d : ℚ, (d, u) ∈ σ.queue → du < (d : WithTop ℚ)
  dvals : σ.queue.Pairwise fun e₁ e₂ => e₁.2 = e₂.2 → e₁.1 ≠ e₂.1
  ach : ∀ v (q : ℚ), dlookup σ.dist v = some (q : WithTop ℚ) →
    ∃ p, p.head? = some s ∧ p.getLast? = some v ∧ pathW g p = some q
  rwit : ∀ v (q : ℚ), dlookup σ.dist v = some (q : WithTop ℚ) →
    v ∈ P ∨ (q, v) ∈ σ.queue
  pv : ∀ v u, dlookup σ.prev v = some (some u) → u ∈ P
  pord : ∀ v ∈ P, ∀ u, dlookup σ.prev v = some (some u) →
    P.indexOf u < P.indexOf v
  pfin2 : ∀ v u, dlookup σ.prev v = some (some u) →
    ∃ q : ℚ, dlookup σ.dist v = some (q : WithTop ℚ)
  pkeys : ∀ u ∈ P, (dlookup g u).isSome
  pnd : P.Nodup

/-- All neighbors of every processed node are relaxed with respect to the
current distances. -/
def RelInv (g : Graph) (P : List Place) (σ : DState) : Prop :=
  ∀ u ∈ P, ∀ m, dlookup g u = some m → ∀ v w, dlookup m v = some w →
    ∀ du dv, dlookup σ.dist u = some du → dlookup σ.dist v = some dv →
      dv ≤ du + (w : WithTop ℚ)

/-- The full loop invariant. -/
def LoopInv (g : Graph) (s : Place) (P : List Place) (σ : DState) : Prop :=
  InvC g s P σ ∧ RelInv g P σ

/-- The small invariant needed for key-error freedom alone (no assumption
on edge weights): queue nodes, distance keys, predecessor keys and
predecessor values all stay inside the graph's key set. -/
def Inv0 (g : Graph) (σ : DState) : Prop :=
  (∀ e ∈ σ.queue, (dlookup g e.2).isSome) ∧
  (∀ v : Place, (dlookup σ.dist v).isSome ↔ (dlookup g v).isSome) ∧
  (∀ v : Place, (dlookup σ.prev v).isSome ↔ (dlookup g v).isSome) ∧
  (∀ v u : Place, dlookup σ.prev v = some (some u) → (dlookup g u).isSome)

/-- Symmetry phrased on lookups (first occurrences); on well-formed
graphs this is equivalent to `SymmB`. -/
def SymmL (g : Graph) : Prop :=
  ∀ a m b w, dlookup g a = some m → dlookup m b = some w →
    ∃ m', dlookup g b = some m' ∧ dlookup m' a = some w

/-! ## Dictionary lemmas -/

theorem dlookup_dinsert_self {β : Type} (l : Dict β) (a : Place) (b : β) :
    dlookup (dinsert l a b) a = some b := by
  induction l with
  | nil => simp [dinsert, dlookup]
  | cons kv rest ih =>
    by_cases h : kv.1 = a
    · simp [dinsert, dlookup, h]
    · simp [dinsert, dlookup, h, ih]

theorem dlookup_dinsert_ne {β : Type} (l : Dict β) {a c : Place} (b : β)
    (h : a ≠ c) : dlookup (dinsert l a b) c = dlookup l c := by
  induction l with
  | nil => simp [dinsert, dlookup, h]
  | cons kv rest ih =>
    by_cases hk : kv.1 = a
    · simp [dinsert, dlookup, hk, h]
    · by_cases hc : kv.1 = c
      · simp [dinsert, dlookup, hk, hc, Ne.symm h]
      · simp [dinsert, dlookup, hk, hc, ih]

theorem dlookup_derase_ne {β : Type} (l : Dict β) {a c : Place} (h : a ≠ c) :
    dlookup (derase l a) c = dlookup l c := by
  induction l with
  | nil => simp [derase]
  | cons kv rest ih =>
    by_cases hk : kv.1 = a
    · subst hk; simp [derase, dlookup, h]
    · by_cases hc : kv.1 = c
      · simp [derase, dlookup, hk, hc, Ne.symm h]
      · simp [derase, dlookup, hk, hc, ih]

theorem mem_of_dlookup {β : Type} {l : Dict β} {a : Place} {b : β}
    (h : dlookup l a = some b) : (a, b) ∈ l := by
  induction l with
  | nil => simp [dlookup] at h
  | cons kv rest ih =>
    by_cases hk : kv.1 = a
    · subst hk
      simp [dlookup] at h
      simp [← h]
    · simp [dlookup, hk] at h
      exact List.mem_cons_of_mem _ (ih h)

theorem dlookup_isSome_iff {β : Type} (l : Dict β) (a : Place) :
    (dlookup l a).isSome = true ↔ a ∈ l.map Prod.fst := by
  induction l with
  | nil => simp [dlookup]
  | cons kv rest ih =>
    by_cases hk : kv.1 = a
    · subst hk; simp [dlookup]
    · simp [dlookup, hk, ih, Ne.symm hk]

theorem dlookup_of_mem {β : Type} {l : Dict β} (hnd : (l.map Prod.fst).Nodup)
    {a : Place} {b : β} (h : (a, b) ∈ l) : dlookup l a = some b := by
  induction l with
  | nil => simp at h
  | cons kv rest ih =>
    rw [List.map_cons, List.nodup_cons] at hnd
    rcases List.mem_cons.mp h with h1 | h1
    · rw [← h1]; simp [dlookup]
    · have hak : kv.1 ≠ a := by
        intro he
        apply hnd.1
        rw [he]
        exact List.mem_map_of_mem Prod.fst h1
      simp [dlookup, hak]
      exact ih hnd.2 h1

theorem keys_dinsert_present {β : Type} {l : Dict β} {a : Place} (b : β)
    (h : (dlookup l a).isSome) :
    (dinsert l a b).map Prod.fst = l.map Prod.fst := by
  induction l with
  | nil => simp [dlookup] at h
  | cons kv rest ih =>
    by_cases hk : kv.1 = a
    · simp [dinsert, hk]
    · simp [dlookup, hk] at h
      simp [dinsert, hk, ih h]

theorem keys_dinsert_absent {β : Type} {l : Dict β} {a : Place} (b : β)
    (h : ¬ (dlookup l a).isSome) :
    (dinsert l a b).map Prod.fst = l.map Prod.fst ++ [a] := by
  induction l with
  | nil => simp [dinsert]
  | cons kv rest ih =>
    by_cases hk : kv.1 = a
    · simp [dlookup, hk] at h
    · simp [dlookup, hk] at h
      simp [dinsert, hk, ih (by simp [h])]

theorem keys_derase {β : Type} (l : Dict β) (a : Place) :
    (derase l a).map Prod.fst = (l.map Prod.fst).erase a := by
  induction l with
  | nil => simp [derase]
  | cons kv rest ih =>
    by_cases hk : kv.1 = a
    · simp [derase, hk, List.erase_cons_head]
    · simp [derase, hk, ih, List.erase_cons_tail, hk]

theorem dlookup_derase_self {β : Type} {l : Dict β}
    (hnd : (l.map Prod.fst).Nodup) (a : Place) :
    dlookup (derase l a) a = none := by
  induction l with
  | nil => simp [derase, dlookup]
  | cons kv rest ih =>
    rw [List.map_cons, List.nodup_cons] at hnd
    by_cases hk : kv.1 = a
    · subst hk
      have he : derase (kv :: rest) kv.1 = rest := by simp [derase]
      rw [he]
      cases hrest : dlookup rest kv.1 with
      | none => rfl
      | some b =>
        exact absurd (List.mem_map_of_mem Prod.fst (mem_of_dlookup hrest)) hnd.1
    · simp [derase, hk, dlookup, hk, ih hnd.2]

theorem dlookup_map_const {β γ : Type} (l : Dict β) (c : γ) (a : Place) :
    dlookup (l.map fun kv => (kv.1, c)) a = (dlookup l a).map fun _ => c := by
  induction l with
  | nil => simp [dlookup]
  | cons kv rest ih =>
    by_cases hk : kv.1 = a
    · simp [dlookup, hk]
    · simp [dlookup, hk, ih]

theorem nodup_keys_dinsert {β : Type} {l : Dict β} (a : Place) (b : β)
    (hnd : (l.map Prod.fst).Nodup) : ((dinsert l a b).map Prod.fst).Nodup := by
  by_cases h : (dlookup l a).isSome
  · rw [keys_dinsert_present b h]; exact hnd
  · rw [keys_dinsert_absent b h]
    refine List.Nodup.append hnd (List.nodup_singleton a) ?_
    intro x hx hx'
    simp at hx'
    subst hx'
    exact h ((dlookup_isSome_iff l x).mpr hx)

/-! ## Priority-queue lemmas -/

theorem lexLE_refl (a : ℚ × Place) : lexLE a a := Or.inr ⟨rfl, le_refl _⟩

theorem lexLE_total (a b : ℚ × Place) : lexLE a b ∨ lexLE b a := by
  rcases lt_trichotomy a.1 b.1 with h | h | h
  · exact Or.inl (Or.inl h)
  · rcases le_total a.2 b.2 with h2 | h2
    · exact Or.inl (Or.inr ⟨h, h2⟩)
    · exact Or.inr (Or.inr ⟨h.symm, h2⟩)
  · exact Or.inr (Or.inl h)

theorem lexLE_trans {a b c : ℚ × Place} (h1 : lexLE a b) (h2 : lexLE b c) :
    lexLE a c := by
  rcases h1 with h1 | ⟨h1, h1'⟩
  · rcases h2 with h2 | ⟨h2, _⟩
    · exact Or.inl (h1.trans h2)
    · exact Or.inl (h2 ▸ h1)
  · rcases h2 with h2 | ⟨h2, h2'⟩
    · exact Or.inl (h1 ▸ h2)
    · exact Or.inr ⟨h1.trans h2, h1'.trans h2'⟩

theorem lexLE_fst_le {a b : ℚ × Place} (h : lexLE a b) : a.1 ≤ b.1 := by
  rcases h with h | ⟨h, _⟩
  · exact le_of_lt h
  · exact le_of_eq h

theorem selMin_mem (best : ℚ × Place) (l : List (ℚ × Place)) :
    selMin best l = best ∨ selMin best l ∈ l := by
  induction l generalizing best with
  | nil => exact Or.inl rfl
  | cons e rest ih =>
    simp only [selMin]
    by_cases h : lexLE best e
    · rw [if_pos h]
      rcases ih best with h1 | h1
      · exact Or.inl h1
      · exact Or.inr (List.mem_cons_of_mem _ h1)
    · rw [if_neg h]
      rcases ih e with h1 | h1
      · exact Or.inr (by rw [h1]; exact List.mem_cons_self e rest)
      · exact Or.inr (List.mem_cons_of_mem _ h1)

theorem selMin_le (best : ℚ × Place) (l : List (ℚ × Place)) :
    lexLE (selMin best l) best ∧ ∀ e ∈ l, lexLE (selMin best l) e := by
  induction l generalizing best with
  | nil => exact ⟨lexLE_refl best, by simp⟩
  | cons e rest ih =>
    simp only [selMin]
    by_cases h : lexLE best e
    · rw [if_pos h]
      refine ⟨(ih best).1, ?_⟩
      intro e' he'
      rcases List.mem_cons.mp he' with he' | he'
      · exact he' ▸ lexLE_trans (ih best).1 h
      · exact (ih best).2 e' he'
    · rw [if_neg h]
      have hbe : lexLE e best := (lexLE_total best e).resolve_left h
      refine ⟨lexLE_trans (ih e).1 hbe, ?_⟩
      intro e' he'
      rcases List.mem_cons.mp he' with he' | he'
      · exact he' ▸ (ih e).1
      · exact (ih e).2 e' he'

theorem popMin_none_iff (q : List (ℚ × Place)) : popMin q = none ↔ q = [] := by
  cases q with
  | nil => simp [popMin]
  | cons e rest => simp [popMin]

theorem popMin_some {q : List (ℚ × Place)} {m : ℚ × Place}
    {rest : List (ℚ × Place)} (h : popMin q = some (m, rest)) :
    m ∈ q ∧ rest = q.erase m ∧ ∀ e ∈ q, lexLE m e := by
  cases q with
  | nil => simp [popMin] at h
  | cons e0 r0 =>
    simp only [popMin] at h
    have hm : m = selMin e0 r0 := by
      have := congrArg (fun x => x.map Prod.fst) h
      simp at this
      exact this.symm
    have hr : rest = (e0 :: r0).erase m := by
      have := congrArg (fun x => x.map Prod.snd) h
      simp at this
      rw [← this, hm]
    subst hm
    refine ⟨?_, hr, ?_⟩
    · rcases selMin_mem e0 r0 with h1 | h1
      · rw [h1]; exact List.mem_cons_self e0 r0
      · exact List.mem_cons_of_mem _ h1
    · intro e he
      rcases List.mem_cons.mp he with he | he
      · exact he ▸ (selMin_le e0 r0).1
      · exact (selMin_le e0 r0).2 e he

theorem pairwise_erase_rel {R : (ℚ × Place) → (ℚ × Place) → Prop}
    {l : List (ℚ × Place)} (hp : l.Pairwise R) {b : ℚ × Place} (hb : b ∈ l) :
    ∀ a ∈ l.erase b, R b a ∨ R a b := by
  induction l with
  | nil => simp
  | cons h0 rest ih =>
    rw [List.pairwise_cons] at hp
    intro a ha
    by_cases hhb : h0 = b
    · subst hhb
      rw [List.erase_cons_head] at ha
      exact Or.inl (hp.1 a ha)
    · rw [List.erase_cons_tail (by simp [hhb])] at ha
      rcases List.mem_cons.mp ha with ha | ha
      · subst ha
        have hbrest : b ∈ rest := by
          rcases List.mem_cons.mp hb with h1 | h1
          · exact absurd h1.symm hhb
          · exact h1
        exact Or.inr (hp.1 b hbrest)
      · have hbrest : b ∈ rest := by
          rcases List.mem_cons.mp hb with h1 | h1
          · exact absurd h1.symm hhb
          · exact h1
        exact ih hp.2 hbrest a ha

/-! ## Path-weight lemmas -/

theorem pathW_single (g : Graph) (a : Place) : pathW g [a] = some 0 := rfl

theorem pathW_cons_cons_iff {g : Graph} {a b : Place} {rest : List Place}
    {w : ℚ} :
    pathW g (a :: b :: rest) = some w ↔
      ∃ m wab r, dlookup g a = some m ∧ dlookup m b = some wab ∧
        pathW g (b :: rest) = some r ∧ w = wab + r := by
  constructor
  · intro h
    cases hm : dlookup g a with
    | none => simp [pathW, hm] at h
    | some m =>
      cases hw : dlookup m b with
      | none => simp [pathW, hm, hw] at h
      | some wab =>
        cases hr : pathW g (b :: rest) with
        | none => simp [pathW, hm, hw, hr] at h
        | some r =>
          simp [pathW, hm, hw, hr] at h
          exact ⟨m, wab, r, rfl, hw, rfl, h.symm⟩
  · rintro ⟨m, wab, r, hm, hw, hr, rfl⟩
    simp [pathW, hm, hw, hr]

theorem pathW_head_isSome {g : Graph} {a b : Place} {rest : List Place} {w : ℚ}
    (h : pathW g (a :: b :: rest) = some w) : (dlookup g a).isSome := by
  rcases pathW_cons_cons_iff.mp h with ⟨m, _, _, hm, _⟩
  simp [hm]

theorem pathW_append_edge {g : Graph} {p : List Place} {q : ℚ} {x n : Place}
    {m : NMap} {w : ℚ} (hp : pathW g p = some q) (hl : p.getLast? = some x)
    (hm : dlookup g x = some m) (hw : dlookup m n = some w) :
    pathW g (p ++ [n]) = some (q + w) := by
  induction p generalizing q with
  | nil => simp [pathW] at hp
  | cons a rest ih =>
    cases rest with
    | nil =>
      simp at hl
      subst hl
      have hq : q = 0 := by
        have h0 : pathW g [a] = some 0 := rfl
        rw [h0] at hp
        exact (Option.some.inj hp).symm
      subst hq
      simp only [List.cons_append, List.nil_append]
      exact pathW_cons_cons_iff.mpr ⟨m, w, 0, hm, hw, rfl, by ring⟩
    | cons b rest' =>
      rcases pathW_cons_cons_iff.mp hp with ⟨ma, wab, r, hma, hwab, hr, rfl⟩
      have hl' : (b :: rest').getLast? = some x := by
        rw [List.getLast?_cons_cons] at hl
        exact hl
      have hrec := ih hr hl'
      simp only [List.cons_append]
      exact pathW_cons_cons_iff.mpr ⟨ma, wab, r + w, hma, hwab, hrec, by ring⟩

theorem pathW_nonneg {g : Graph} (hnn : NonnegB g) {p : List Place} {w : ℚ}
    (h : pathW g p = some w) : 0 ≤ w := by
  induction p generalizing w with
  | nil => simp [pathW] at h
  | cons a rest ih =>
    cases rest with
    | nil =>
      simp [pathW] at h
      simp [← h]
    | cons b rest' =>
      rcases pathW_cons_cons_iff.mp h with ⟨m, wab, r, hm, hw, hr, rfl⟩
      have h1 : 0 ≤ wab := hnn _ (mem_of_dlookup hm) _ (mem_of_dlookup hw)
      have h2 : 0 ≤ r := ih hr
      linarith

theorem pathW_glue {g : Graph} {l₁ l₂ : List Place} {a : Place} {w₁ w₂ : ℚ}
    (h₁ : pathW g (l₁ ++ [a]) = some w₁) (h₂ : pathW g (a :: l₂) = some w₂) :
    pathW g (l₁ ++ a :: l₂) = some (w₁ + w₂) := by
  induction l₁ generalizing w₁ with
  | nil =>
    simp [pathW] at h₁
    subst h₁
    simpa using h₂
  | cons x rest ih =>
    cases rest with
    | nil =>
      rcases pathW_cons_cons_iff.mp h₁ with ⟨m, wab, r, hm, hw, hr, rfl⟩
      simp [pathW] at hr
      subst hr
      have : pathW g (x :: a :: l₂) = some (wab + w₂) :=
        pathW_cons_cons_iff.mpr ⟨m, wab, w₂, hm, hw, h₂, rfl⟩
      simpa [add_assoc, add_comm, add_left_comm] using this
    | cons y rest' =>
      rcases pathW_cons_cons_iff.mp h₁ with ⟨m, wab, r, hm, hw, hr, rfl⟩
      have := ih hr
      have hgoal : pathW g (x :: ((y :: rest') ++ a :: l₂)) = some (wab + (r + w₂)) :=
        pathW_cons_cons_iff.mpr ⟨m, wab, r + w₂, hm, hw, this, rfl⟩
      simpa [add_assoc] using hgoal

theorem pathW_split {g : Graph} {l₁ l₂ : List Place} {a : Place} {w : ℚ}
    (h : pathW g (l₁ ++ a :: l₂) = some w) :
    ∃ w₁ w₂, pathW g (l₁ ++ [a]) = some w₁ ∧ pathW g (a :: l₂) = some w₂ ∧
      w = w₁ + w₂ := by
  induction l₁ generalizing w with
  | nil =>
    refine ⟨0, w, by simp [pathW], by simpa using h, by ring⟩
  | cons x rest ih =>
    cases rest with
    | nil =>
      simp only [List.cons_append, List.nil_append] at h
      rcases pathW_cons_cons_iff.mp h with ⟨m, wab, r, hm, hw, hr, rfl⟩
      refine ⟨wab, r, ?_, hr, rfl⟩
      exact pathW_cons_cons_iff.mpr ⟨m, wab, 0, hm, hw, rfl, by ring⟩
    | cons y rest' =>
      simp only [List.cons_append] at h
      rcases pathW_cons_cons_iff.mp h with ⟨m, wab, r, hm, hw, hr, rfl⟩
      rcases ih hr with ⟨w₁, w₂, hw₁, hw₂, rfl⟩
      refine ⟨wab + w₁, w₂, ?_, hw₂, by ring⟩
      exact pathW_cons_cons_iff.mpr ⟨m, wab, w₁, hm, hw, hw₁, rfl⟩

/-! ## Path simplification and reachability -/

theorem pathW_nodes {g : Graph} (hcl : ClosedB g) :
    ∀ {p : List Place} {w : ℚ} {s : Place}, pathW g p = some w →
      p.head? = some s → (dlookup g s).isSome → ∀ v ∈ p, (dlookup g v).isSome := by
  intro p
  induction p with
  | nil => intro w s h; simp [pathW] at h
  | cons a rest ih =>
    intro w s h hh hs v hv
    simp at hh
    subst hh
    cases rest with
    | nil =>
      simp at hv
      subst hv
      exact hs
    | cons b rest' =>
      rcases pathW_cons_cons_iff.mp h with ⟨ma, wab, r, hma, hwab, hr, rfl⟩
      rcases List.mem_cons.mp hv with hv | hv
      · subst hv; exact hs
      · have hb : (dlookup g b).isSome :=
          hcl _ (mem_of_dlookup hma) _ (mem_of_dlookup hwab)
        exact ih hr rfl hb v hv

theorem not_nodup_split {l : List Place} (h : ¬ l.Nodup) :
    ∃ (l₁ : List Place) (a : Place) (l₂ l₃ : List Place),
      l = l₁ ++ a :: (l₂ ++ a :: l₃) := by
  induction l with
  | nil => exact absurd List.nodup_nil h
  | cons x xs ih =>
    by_cases hx : x ∈ xs
    · rcases List.append_of_mem hx with ⟨s, t, hst⟩
      exact ⟨[], x, s, t, by simp [hst]⟩
    · have hxs : ¬ xs.Nodup := by
        intro hnd
        exact h (List.nodup_cons.mpr ⟨hx, hnd⟩)
      rcases ih hxs with ⟨l₁, a, l₂, l₃, hl⟩
      exact ⟨x :: l₁, a, l₂, l₃, by simp [hl]⟩

theorem head_append_cons (l : List Place) (a : Place) (t₁ t₂ : List Place) :
    (l ++ a :: t₁).head? = (l ++ a :: t₂).head? := by
  cases l <;> simp

theorem getLast_append_cons (l : List Place) (a : Place) (t : List Place) :
    (l ++ a :: t).getLast? = (a :: t).getLast? := by
  rw [List.getLast?_append]
  cases ht : (a :: t).getLast? with
  | none => exact absurd ht (by simp)
  | some x => simp

theorem path_simplify_aux {g : Graph} (hnn : NonnegB g) :
    ∀ (N : Nat) (p : List Place) {w : ℚ} {s t : Place}, p.length ≤ N →
      pathW g p = some w → p.head? = some s → p.getLast? = some t →
      ∃ p' w', p'.Nodup ∧ p'.head? = some s ∧ p'.getLast? = some t ∧
        pathW g p' = some w' ∧ w' ≤ w := by
  intro N
  induction N with
  | zero =>
    intro p w s t hlen h hh hl
    have : p = [] := List.length_eq_zero.mp (Nat.le_zero.mp hlen)
    subst this
    simp [pathW] at h
  | succ N ih =>
    intro p w s t hlen h hh hl
    by_cases hnd : p.Nodup
    · exact ⟨p, w, hnd, hh, hl, h, le_refl w⟩
    · rcases not_nodup_split hnd with ⟨l₁, a, l₂, l₃, rfl⟩
      rcases pathW_split h with ⟨w₁, w₂, hw₁, hw₂, rfl⟩
      have hsplit2 : pathW g ((a :: l₂) ++ a :: l₃) = some w₂ := by
        simpa using hw₂
      rcases pathW_split hsplit2 with ⟨w₂₁, w₂₂, hw₂₁, hw₂₂, rfl⟩
      have hglue : pathW g (l₁ ++ a :: l₃) = some (w₁ + w₂₂) := pathW_glue hw₁ hw₂₂
      have hh' : (l₁ ++ a :: l₃).head? = some s := by
        rw [head_append_cons l₁ a l₃ (l₂ ++ a :: l₃)]
        exact hh
      have hl' : (l₁ ++ a :: l₃).getLast? = some t := by
        have e1 : (l₁ ++ a :: (l₂ ++ a :: l₃)).getLast? = (a :: l₃).getLast? := by
          rw [getLast_append_cons]
          have e0 : (a :: (l₂ ++ a :: l₃)) = (a :: l₂) ++ a :: l₃ := by simp
          rw [e0, getLast_append_cons]
        have e2 : (l₁ ++ a :: l₃).getLast? = (a :: l₃).getLast? :=
          getLast_append_cons l₁ a l₃
        rw [e2, ← e1]
        exact hl
      have hlen' : (l₁ ++ a :: l₃).length ≤ N := by
        have h1 : (l₁ ++ a :: l₃).length + (l₂.length + 1) =
            (l₁ ++ a :: (l₂ ++ a :: l₃)).length := by
          simp
          ring
        omega
      rcases ih (l₁ ++ a :: l₃) hlen' hglue hh' hl' with
        ⟨p', w', hnd', hh'', hl'', hpw', hle⟩
      have h21 : 0 ≤ w₂₁ := pathW_nonneg hnn hw₂₁
      exact ⟨p', w', hnd', hh'', hl'', hpw', by linarith⟩

theorem path_simplify {g : Graph} (hnn : NonnegB g) {p : List Place} {w : ℚ}
    {s t : Place} (h : pathW g p = some w) (hh : p.head? = some s)
    (hl : p.getLast? = some t) :
    ∃ p' w', p'.Nodup ∧ p'.head? = some s ∧ p'.getLast? = some t ∧
      pathW g p' = some w' ∧ w' ≤ w :=
  path_simplify_aux hnn p.length p (le_refl _) h hh hl

theorem mem_stepR_self {g : Graph} {S : List Place} {v : Place} (h : v ∈ S) :
    v ∈ stepR g S :=
  List.mem_append_left _ h

theorem mem_foldr_nbrs {g : Graph} {S : List Place} {n : Place}
    {v : Place} (hv : v ∈ S) (hn : n ∈ nbrKeys g v) :
    n ∈ S.foldr (fun v acc => nbrKeys g v ++ acc) [] := by
  induction S with
  | nil => simp at hv
  | cons x rest ih =>
    rcases List.mem_cons.mp hv with hv | hv
    · subst hv
      exact List.mem_append_left _ hn
    · exact List.mem_append_right _ (ih hv)

theorem mem_stepR_nbr {g : Graph} {S : List Place} {v n : Place} {m : NMap}
    {w : ℚ} (hv : v ∈ S) (hm : dlookup g v = some m) (hn : dlookup m n = some w) :
    n ∈ stepR g S := by
  apply List.mem_append_right
  apply mem_foldr_nbrs hv
  unfold nbrKeys
  rw [hm]
  exact List.mem_map_of_mem Prod.fst (mem_of_dlookup hn)

theorem mem_iterate_of_mem {g : Graph} {S : List Place} {v : Place} (h : v ∈ S) :
    ∀ k, v ∈ (stepR g)^[k] S := by
  intro k
  induction k generalizing S with
  | zero => exact h
  | succ k ih =>
    rw [Function.iterate_succ_apply]
    exact ih (mem_stepR_self h)

theorem reach_of_path {g : Graph} :
    ∀ (k : Nat) (S : List Place) (p : List Place) {a t : Place} {w : ℚ},
      a ∈ S → pathW g p = some w → p.head? = some a → p.getLast? = some t →
      p.length ≤ k + 1 → t ∈ (stepR g)^[k] S := by
  intro k
  induction k with
  | zero =>
    intro S p a t w ha hp hh hl hlen
    cases p with
    | nil => simp at hh
    | cons x rest =>
      cases rest with
      | nil =>
        simp at hh hl
        subst hh
        subst hl
        exact ha
      | cons y rest' => simp at hlen
  | succ k ih =>
    intro S p a t w ha hp hh hl hlen
    cases p with
    | nil => simp at hh
    | cons x rest =>
      simp at hh
      subst hh
      cases rest with
      | nil =>
        simp at hl
        subst hl
        exact mem_iterate_of_mem ha (k + 1)
      | cons b rest' =>
        rcases pathW_cons_cons_iff.mp hp with ⟨m, wab, r, hm, hw, hr, rfl⟩
        have hb : b ∈ stepR g S := mem_stepR_nbr ha hm hw
        have hl' : (b :: rest').getLast? = some t := by
          rw [List.getLast?_cons_cons] at hl
          exact hl
        rw [Function.iterate_succ_apply]
        exact ih (stepR g S) (b :: rest') hb hr rfl hl' (by simpa using hlen)

theorem nodup_length_le {l m : List Place} (hnd : l.Nodup)
    (hsub : ∀ x ∈ l, x ∈ m) : l.length ≤ m.length := by
  have h1 : l.toFinset.card = l.length := List.toFinset_card_of_nodup hnd
  have h2 : l.toFinset ⊆ m.toFinset := by
    intro x hx
    rw [List.mem_toFinset] at hx ⊢
    exact hsub x hx
  have h3 : l.toFinset.card ≤ m.toFinset.card := Finset.card_le_card h2
  have h4 : m.toFinset.card ≤ m.length := m.toFinset_card_le
  omega

theorem reachSet_complete {g : Graph} (hcl : ClosedB g) (hnn : NonnegB g)
    {s t : Place} (hs : memB g s) {p : List Place} {w : ℚ}
    (hp : pathW g p = some w) (hh : p.head? = some s)
    (hl : p.getLast? = some t) : t ∈ reachSet g s := by
  rcases path_simplify hnn hp hh hl with ⟨p', w', hnd', hh', hl', hpw', _⟩
  have hnodes : ∀ v ∈ p', (dlookup g v).isSome :=
    pathW_nodes hcl hpw' hh' hs
  have hkeys : ∀ v ∈ p', v ∈ g.map Prod.fst := by
    intro v hv
    exact (dlookup_isSome_iff g v).mp (hnodes v hv)
  have hlen : p'.length ≤ g.length := by
    have := nodup_length_le hnd' hkeys
    simpa using this
  unfold reachSet
  have hsS : s ∈ [s] := List.mem_singleton.mpr rfl
  exact reach_of_path g.length [s] p' hsS hpw' hh' hl' (by omega)

/-! ## Preservation of the invariant by relaxation -/

theorem head_append_left {p : List Place} {s : Place} (h : p.head? = some s)
    (q : List Place) : (p ++ q).head? = some s := by
  cases p with
  | nil => simp at h
  | cons a t => simpa using h

theorem isSome_dinsert_of_present {β : Type} {l : Dict β} {k : Place} (b : β)
    (hk : (dlookup l k).isSome) (v : Place) :
    (dlookup (dinsert l k b) v).isSome = (dlookup l v).isSome := by
  by_cases h : k = v
  · subst h
    rw [dlookup_dinsert_self]
    simp [hk]
  · rw [dlookup_dinsert_ne _ b h]

theorem relaxAll_spec {g : Graph} (hwf : WFG g) (hcl : ClosedB g)
    (hnn : NonnegB g) {s x : Place} {d : ℚ} {m₀ : NMap}
    (hm₀ : dlookup g x = some m₀) {P : List Place} :
    ∀ (l : List (Place × ℚ)) (σ : DState),
      (∀ e ∈ l, e ∈ m₀) →
      InvC g s (P ++ [x]) σ →
      RelInv g P σ →
      dlookup σ.dist x = some ((d : ℚ) : WithTop ℚ) →
      (∀ u ∈ P ++ [x], ∀ du, dlookup σ.dist u = some du →
        du ≤ ((d : ℚ) : WithTop ℚ)) →
      ∃ σ', relaxAll d x l σ = .ok σ' ∧
        InvC g s (P ++ [x]) σ' ∧
        RelInv g P σ' ∧
        dlookup σ'.dist x = some ((d : ℚ) : WithTop ℚ) ∧
        (∀ u ∈ P ++ [x], ∀ du, dlookup σ'.dist u = some du →
          du ≤ ((d : ℚ) : WithTop ℚ)) ∧
        (∀ v dv', dlookup σ'.dist v = some dv' →
          ∃ dv, dlookup σ.dist v = some dv ∧ dv' ≤ dv) ∧
        (∀ e ∈ l, ∀ dn', dlookup σ'.dist e.1 = some dn' →
          dn' ≤ ((d + e.2 : ℚ) : WithTop ℚ)) ∧
        σ'.queue.length ≤ σ.queue.length + l.length := by
  intro l
  induction l with
  | nil =>
    intro σ _ hInv hrel hdx hub
    refine ⟨σ, rfl, hInv, hrel, hdx, hub, ?_, by simp, by simp⟩
    intro v dv' h
    exact ⟨dv', h, le_refl _⟩
  | cons e rest ih =>
    rcases e with ⟨n, w⟩
    intro σ hsub hInv hrel hdx hub
    have hxg : (x, m₀) ∈ g := mem_of_dlookup hm₀
    have hnw : (n, w) ∈ m₀ := hsub (n, w) (List.mem_cons_self _ _)
    have hnkeys : (dlookup g n).isSome := hcl _ hxg _ hnw
    have hndist : (dlookup σ.dist n).isSome := (hInv.kd n).mpr hnkeys
    rcases Option.isSome_iff_exists.mp hndist with ⟨dn, hdn⟩
    have hw0 : 0 ≤ w := hnn _ hxg _ hnw
    have hd0 : (0 : ℚ) ≤ d := by
      have := hInv.nn x _ hdx
      exact_mod_cast this
    have hcand0 : (0 : ℚ) ≤ d + w := by linarith
    have hnlook : dlookup m₀ n = some w := dlookup_of_mem (hwf.2 _ hxg) hnw
    by_cases hcond : ((d + w : ℚ) : WithTop ℚ) < dn
    · -- relaxation: update distance, predecessor, and push onto the queue
      have hnP : n ∉ P ++ [x] := by
        intro hmem
        have h1 : dn ≤ ((d : ℚ) : WithTop ℚ) := hub n hmem dn hdn
        have h2 : ((d : ℚ) : WithTop ℚ) ≤ ((d + w : ℚ) : WithTop ℚ) := by
          exact_mod_cast (by linarith : d ≤ d + w)
        exact absurd (lt_of_lt_of_le hcond (le_trans h1 h2)) (lt_irrefl _)
      have hnx : n ≠ x := by
        intro he
        exact hnP (he ▸ List.mem_append_right P (List.mem_singleton.mpr rfl))
      have hns : n ≠ s := by
        intro he
        subst he
        have hdn0 : dn = 0 := (Option.some.inj (hInv.s0.symm.trans hdn)).symm
        rw [hdn0, ← WithTop.coe_zero] at hcond
        have : d + w < 0 := WithTop.coe_lt_coe.mp hcond
        linarith
      set cand : WithTop ℚ := ((d + w : ℚ) : WithTop ℚ) with hcand_def
      set σ₁ : DState :=
        ⟨σ.queue ++ [(d + w, n)], dinsert σ.dist n cand,
         dinsert σ.prev n (some x)⟩ with hσ₁
      have hd₁self : dlookup σ₁.dist n = some cand := dlookup_dinsert_self _ _ _
      have hd₁ne : ∀ v, v ≠ n → dlookup σ₁.dist v = dlookup σ.dist v := by
        intro v hv
        exact dlookup_dinsert_ne _ _ (Ne.symm hv)
      have hp₁self : dlookup σ₁.prev n = some (some x) := dlookup_dinsert_self _ _ _
      have hp₁ne : ∀ v, v ≠ n → dlookup σ₁.prev v = dlookup σ.prev v := by
        intro v hv
        exact dlookup_dinsert_ne _ _ (Ne.symm hv)
      have hmono₁ : ∀ v dv', dlookup σ₁.dist v = some dv' →
          ∃ dv, dlookup σ.dist v = some dv ∧ dv' ≤ dv := by
        intro v dv' h
        by_cases hv : v = n
        · subst hv
          rw [hd₁self] at h
          have hdveq : dv' = cand := (Option.some.inj h).symm
          exact ⟨dn, hdn, by rw [hdveq]; exact le_of_lt hcond⟩
        · rw [hd₁ne v hv] at h
          exact ⟨dv', h, le_refl _⟩
      have hInv₁ : InvC g s (P ++ [x]) σ₁ := by
        refine ⟨?_, ?_, ?_, ?_, ?_, ?_, ?_, ?_, ?_, ?_, ?_, ?_, ?_, ?_, ?_, ?_,
          hInv.pkeys, hInv.pnd⟩
        · -- kq
          intro e he
          rcases List.mem_append.mp he with he | he
          · exact hInv.kq e he
          · rcases e with ⟨ed, ev⟩
            simp at he
            show (dlookup g ev).isSome
            rw [he.2]
            exact hnkeys
        · -- kd
          intro v
          rw [show σ₁.dist = dinsert σ.dist n cand from rfl,
            isSome_dinsert_of_present cand hndist v]
          exact hInv.kd v
        · -- kp
          intro v
          have hnprev : (dlookup σ.prev n).isSome := (hInv.kp n).mpr hnkeys
          rw [show σ₁.prev = dinsert σ.prev n (some x) from rfl,
            isSome_dinsert_of_present (some x) hnprev v]
          exact hInv.kp v
        · -- qge
          intro e he dv hdv
          rcases List.mem_append.mp he with he | he
          · by_cases hv : e.2 = n
            · rw [hv] at hdv
              rw [hd₁self] at hdv
              have hdveq : dv = cand := (Option.some.inj hdv).symm
              have hq := hInv.qge e he dn (by rw [hv]; exact hdn)
              rw [hdveq]
              exact le_trans (le_of_lt hcond) hq
            · rw [hd₁ne e.2 hv] at hdv
              exact hInv.qge e he dv hdv
          · rcases e with ⟨ed, ev⟩
            simp at he
            have hdv' : dlookup σ₁.dist ev = some dv := hdv
            rw [he.2, hd₁self] at hdv'
            have hdveq : dv = cand := (Option.some.inj hdv').symm
            show dv ≤ ((ed : ℚ) : WithTop ℚ)
            rw [hdveq, he.1]
        · -- nn
          intro v dv hdv
          by_cases hv : v = n
          · subst hv
            rw [hd₁self] at hdv
            have hdveq : dv = cand := (Option.some.inj hdv).symm
            rw [hdveq, hcand_def]
            exact_mod_cast hcand0
          · rw [hd₁ne v hv] at hdv
            exact hInv.nn v dv hdv
        · -- s0
          rw [show σ₁.dist = dinsert σ.dist n cand from rfl,
            dlookup_dinsert_ne _ _ hns]
          exact hInv.s0
        · -- p0
          rw [show σ₁.prev = dinsert σ.prev n (some x) from rfl,
            dlookup_dinsert_ne _ _ hns]
          exact hInv.p0
        · -- pfin
          intro u hu
          rcases hInv.pfin u hu with ⟨q, hq⟩
          refine ⟨q, ?_⟩
          rw [hd₁ne u (by intro he; exact hnP (he ▸ hu))]
          exact hq
        · -- f1
          intro u hu du hdu e he
          have hun : u ≠ n := by intro he'; exact hnP (he' ▸ hu)
          rw [hd₁ne u hun] at hdu
          rcases List.mem_append.mp he with he | he
          · exact hInv.f1 u hu du hdu e he
          · rcases e with ⟨ed, ev⟩
            simp at he
            have h0 : ed = d + w := he.1
            subst h0
            have h1 : du ≤ ((d : ℚ) : WithTop ℚ) := hub u hu du hdu
            have h2 : ((d : ℚ) : WithTop ℚ) ≤ ((d + w : ℚ) : WithTop ℚ) := by
              exact_mod_cast (by linarith : d ≤ d + w)
            show du ≤ ((d + w : ℚ) : WithTop ℚ)
            exact le_trans h1 h2
        · -- stale
          intro u hu du hdu d' hd'
          have hun : u ≠ n := by intro he'; exact hnP (he' ▸ hu)
          rw [hd₁ne u hun] at hdu
          rcases List.mem_append.mp hd' with hd' | hd'
          · exact hInv.stale u hu du hdu d' hd'
          · simp at hd'
            exact absurd hd'.2 hun
        · -- dvals
          rw [show σ₁.queue = σ.queue ++ [(d + w, n)] from rfl,
            List.pairwise_append]
          refine ⟨hInv.dvals, List.pairwise_singleton _ _, ?_⟩
          intro e he e' he'
          simp at he'
          subst he'
          intro hen
          have hen' : e.2 = n := hen
          show e.1 ≠ d + w
          have hq := hInv.qge e he dn (by rw [hen']; exact hdn)
          intro heq
          rw [heq] at hq
          exact absurd (lt_of_lt_of_le hcond hq) (lt_irrefl _)
        · -- ach
          intro v q hq
          by_cases hv : v = n
          · subst hv
            rw [hd₁self] at hq
            have hc : cand = ((q : ℚ) : WithTop ℚ) := Option.some.inj hq
            rw [hcand_def] at hc
            have hqeq : q = d + w := by exact_mod_cast hc.symm
            subst hqeq
            rcases hInv.ach x d hdx with ⟨p, hh, hlst, hpw⟩
            refine ⟨p ++ [v], head_append_left hh [v], ?_, ?_⟩
            · rw [getLast_append_cons p v []]
              simp
            · exact pathW_append_edge hpw hlst hm₀ hnlook
          · rw [hd₁ne v hv] at hq
            exact hInv.ach v q hq
        · -- rwit
          intro v q hq
          by_cases hv : v = n
          · subst hv
            rw [hd₁self] at hq
            have hc : cand = ((q : ℚ) : WithTop ℚ) := Option.some.inj hq
            rw [hcand_def] at hc
            have hqeq : q = d + w := by exact_mod_cast hc.symm
            right
            rw [hqeq]
            exact List.mem_append_right _ (by simp)
          · rw [hd₁ne v hv] at hq
            rcases hInv.rwit v q hq with h | h
            · exact Or.inl h
            · exact Or.inr (List.mem_append_left _ h)
        · -- pv
          intro v u hvu
          by_cases hv : v = n
          · subst hv
            rw [hp₁self] at hvu
            have : u = x := by
              have := Option.some.inj (Option.some.inj hvu)
              exact this.symm
            rw [this]
            exact List.mem_append_right P (List.mem_singleton.mpr rfl)
          · rw [hp₁ne v hv] at hvu
            exact hInv.pv v u hvu
        · -- pord
          intro v hv u hvu
          have hvn : v ≠ n := by intro he; exact hnP (he ▸ hv)
          rw [hp₁ne v hvn] at hvu
          exact hInv.pord v hv u hvu
        · -- pfin2
          intro v u hvu
          by_cases hv : v = n
          · subst hv
            exact ⟨d + w, hd₁self⟩
          · rw [hp₁ne v hv] at hvu
            rcases hInv.pfin2 v u hvu with ⟨q, hq⟩
            refine ⟨q, ?_⟩
            rw [hd₁ne v hv]
            exact hq
      have hrel₁ : RelInv g P σ₁ := by
        intro u hu m hm v wv hv du dv hdu hdv
        have huPx : u ∈ P ++ [x] := List.mem_append_left _ hu
        have hun : u ≠ n := by intro he; exact hnP (he ▸ huPx)
        rw [hd₁ne u hun] at hdu
        rcases hmono₁ v dv hdv with ⟨dv0, hdv0, hle⟩
        exact le_trans hle (hrel u hu m hm v wv hv du dv0 hdu hdv0)
      have hdx₁ : dlookup σ₁.dist x = some ((d : ℚ) : WithTop ℚ) := by
        rw [hd₁ne x (Ne.symm hnx)]
        exact hdx
      have hub₁ : ∀ u ∈ P ++ [x], ∀ du, dlookup σ₁.dist u = some du →
          du ≤ ((d : ℚ) : WithTop ℚ) := by
        intro u hu du hdu
        have hun : u ≠ n := by intro he; exact hnP (he ▸ hu)
        rw [hd₁ne u hun] at hdu
        exact hub u hu du hdu
      have hsub₁ : ∀ e ∈ rest, e ∈ m₀ :=
        fun e he => hsub e (List.mem_cons_of_mem _ he)
      rcases ih σ₁ hsub₁ hInv₁ hrel₁ hdx₁ hub₁ with
        ⟨σ', hrun, hI', hR', hdx', hub', hmono', hpost', hlen'⟩
      have hstep : relaxAll d x ((n, w) :: rest) σ = relaxAll d x rest σ₁ := by
        simp only [relaxAll, hdn]
        rw [if_pos hcond]
      refine ⟨σ', by rw [hstep]; exact hrun, hI', hR', hdx', hub', ?_, ?_, ?_⟩
      · intro v dv' h
        rcases hmono' v dv' h with ⟨dv₁, hdv₁, hle₁⟩
        rcases hmono₁ v dv₁ hdv₁ with ⟨dv0, hdv0, hle0⟩
        exact ⟨dv0, hdv0, le_trans hle₁ hle0⟩
      · intro e he dn' hdn'
        rcases List.mem_cons.mp he with he | he
        · subst he
          have hdn'' : dlookup σ'.dist n = some dn' := hdn'
          rcases hmono' n dn' hdn'' with ⟨dv₁, hdv₁, hle₁⟩
          have hdv₁eq : dv₁ = cand := (Option.some.inj (hd₁self.symm.trans hdv₁)).symm
          rw [hdv₁eq] at hle₁
          show dn' ≤ ((d + w : ℚ) : WithTop ℚ)
          exact hle₁
        · exact hpost' e he dn' hdn'
      · have hq₁ : σ₁.queue.length = σ.queue.length + 1 := by simp
        simp only [List.length_cons]
        omega
    · -- no relaxation: the candidate is not smaller
      have hdnle : dn ≤ ((d + w : ℚ) : WithTop ℚ) := not_lt.mp hcond
      have hsub₁ : ∀ e ∈ rest, e ∈ m₀ :=
        fun e he => hsub e (List.mem_cons_of_mem _ he)
      rcases ih σ hsub₁ hInv hrel hdx hub with
        ⟨σ', hrun, hI', hR', hdx', hub', hmono', hpost', hlen'⟩
      have hstep : relaxAll d x ((n, w) :: rest) σ = relaxAll d x rest σ := by
        simp only [relaxAll, hdn]
        rw [if_neg hcond]
      refine ⟨σ', by rw [hstep]; exact hrun, hI', hR', hdx', hub', hmono', ?_, ?_⟩
      · intro e he dn' hdn'
        rcases List.mem_cons.mp he with he | he
        · subst he
          have hdn'' : dlookup σ'.dist n = some dn' := hdn'
          rcases hmono' n dn' hdn'' with ⟨dv₁, hdv₁, hle₁⟩
          have hdv₁eq : dv₁ = dn := (Option.some.inj (hdn.symm.trans hdv₁)).symm
          rw [hdv₁eq] at hle₁
          show dn' ≤ ((d + w : ℚ) : WithTop ℚ)
          exact le_trans hle₁ hdnle
        · exact hpost' e he dn' hdn'
      · simp only [List.length_cons]
        omega

/-! ## The measure: pops remaining -/

theorem degSum_mono {g : Graph} {P P' : List Place} (h : ∀ p ∈ P, p ∈ P') :
    degSum g P' ≤ degSum g P := by
  induction g with
  | nil => simp [degSum]
  | cons kv rest ih =>
    simp only [degSum, List.foldr_cons] at *
    by_cases hk : kv.1 ∈ P
    · rw [if_pos hk, if_pos (h _ hk)]
      exact ih
    · rw [if_neg hk]
      by_cases hk' : kv.1 ∈ P'
      · rw [if_pos hk']
        omega
      · rw [if_neg hk']
        omega

theorem degSum_append {g : Graph} {P : List Place} {x : Place} {m₀ : NMap}
    (hx : x ∉ P) (hm₀ : dlookup g x = some m₀) :
    degSum g (P ++ [x]) + m₀.length ≤ degSum g P := by
  induction g with
  | nil => simp [dlookup] at hm₀
  | cons kv rest ih =>
    simp only [degSum, List.foldr_cons] at *
    by_cases hk : kv.1 = x
    · have hm : kv.2 = m₀ := by
        rw [show dlookup (kv :: rest) x = some kv.2 by simp [dlookup, hk]] at hm₀
        exact Option.some.inj hm₀
      rw [if_pos (show kv.1 ∈ P ++ [x] from by
          rw [hk]; exact List.mem_append_right _ (List.mem_singleton.mpr rfl)),
        if_neg (show kv.1 ∉ P from by rw [hk]; exact hx), hm]
      have hmono : degSum rest (P ++ [x]) ≤ degSum rest P :=
        degSum_mono fun p hp => List.mem_append_left _ hp
      simp only [degSum] at hmono
      omega
    · have hm₀' : dlookup rest x = some m₀ := by
        rw [show dlookup (kv :: rest) x = dlookup rest x by simp [dlookup, hk]] at hm₀
        exact hm₀
      have := ih hm₀'
      by_cases hkP : kv.1 ∈ P
      · rw [if_pos hkP, if_pos (List.mem_append_left _ hkP)]
        exact this
      · rw [if_neg hkP, if_neg (by
          intro hc
          rcases List.mem_append.mp hc with hc | hc
          · exact hkP hc
          · simp at hc
            exact hk hc)]
        omega

/-! ## The main loop preserves the invariant and terminates -/

theorem dloop_spec {g : Graph} (hwf : WFG g) (hcl : ClosedB g)
    (hnn : NonnegB g) {s : Place} :
    ∀ (fuel : Nat) (P : List Place) (σ : DState),
      InvC g s P σ → RelInv g P σ →
      σ.queue.length + degSum g P ≤ fuel →
      ∃ σ' P', dloop g fuel σ = .ok σ' ∧ InvC g s P' σ' ∧ RelInv g P' σ' ∧
        σ'.queue = [] := by
  intro fuel
  induction fuel with
  | zero =>
    intro P σ hI hR hμ
    have hq : σ.queue = [] := by
      have : σ.queue.length = 0 := by omega
      exact List.length_eq_zero.mp this
    refine ⟨σ, P, ?_, hI, hR, hq⟩
    simp only [dloop]
    rw [(popMin_none_iff σ.queue).mpr hq]
  | succ fuel ih =>
    intro P σ hI hR hμ
    cases hpop : popMin σ.queue with
    | none =>
      have hq : σ.queue = [] := (popMin_none_iff σ.queue).mp hpop
      refine ⟨σ, P, ?_, hI, hR, hq⟩
      simp only [dloop, hpop]
    | some pr =>
      rcases pr with ⟨⟨d, u⟩, rest⟩
      rcases popMin_some hpop with ⟨hmem, hrest, hmin⟩
      have hqpos : 1 ≤ σ.queue.length := List.length_pos.mpr (by
        intro hnil
        rw [hnil] at hmem
        simp at hmem)
      have hrestlen : rest.length = σ.queue.length - 1 := by
        rw [hrest]
        exact List.length_erase_of_mem hmem
      have hukeys : (dlookup g u).isSome := hI.kq (d, u) hmem
      have hudist : (dlookup σ.dist u).isSome := (hI.kd u).mpr hukeys
      rcases Option.isSome_iff_exists.mp hudist with ⟨du, hdu⟩
      have hrsub : ∀ e ∈ rest, e ∈ σ.queue := by
        intro e he
        rw [hrest] at he
        exact List.mem_of_mem_erase he
      have hrsubl : rest.Sublist σ.queue := by
        rw [hrest]
        exact List.erase_sublist _ _
      by_cases hstale : du < (d : WithTop ℚ)
      · -- stale entry: skip it
        set σq : DState := { σ with queue := rest } with hσq
        have hIq : InvC g s P σq := by
          refine ⟨?_, hI.kd, hI.kp, ?_, hI.nn, hI.s0, hI.p0, hI.pfin, ?_, ?_, ?_,
            hI.ach, ?_, hI.pv, hI.pord, hI.pfin2, hI.pkeys, hI.pnd⟩
          · intro e he
            exact hI.kq e (hrsub e he)
          · intro e he dv hdv
            exact hI.qge e (hrsub e he) dv hdv
          · intro u' hu' du' hdu' e he
            exact hI.f1 u' hu' du' hdu' e (hrsub e he)
          · intro u' hu' du' hdu' d' hd'
            exact hI.stale u' hu' du' hdu' d' (hrsub (d', u') hd')
          · exact hI.dvals.sublist hrsubl
          · intro v q hq
            rcases hI.rwit v q hq with h | h
            · exact Or.inl h
            · by_cases hvu : ((q : ℚ), v) = ((d : ℚ), u)
              · exfalso
                have hv : v = u := congrArg Prod.snd hvu
                have hqd : q = d := congrArg Prod.fst hvu
                rw [hv] at hq
                have : du = ((q : ℚ) : WithTop ℚ) :=
                  Option.some.inj (hdu.symm.trans hq)
                rw [this, hqd] at hstale
                exact absurd hstale (lt_irrefl _)
              · right
                show ((q : ℚ), v) ∈ rest
                rw [hrest]
                exact (List.mem_erase_of_ne hvu).mpr h
        have hμq : σq.queue.length + degSum g P ≤ fuel := by
          have : σq.queue.length = rest.length := rfl
          omega
        rcases ih P σq hIq hR hμq with ⟨σ', P', hrun, hI', hR', hq'⟩
        refine ⟨σ', P', ?_, hI', hR', hq'⟩
        simp only [dloop, hpop, hdu]
        rw [if_pos hstale]
        exact hrun
      · -- non-stale: process u
        have hdled : du ≤ (d : WithTop ℚ) := hI.qge (d, u) hmem du hdu
        have hdeq : du = (d : WithTop ℚ) := le_antisymm hdled (not_lt.mp hstale)
        have huP : u ∉ P := by
          intro huP
          have := hI.stale u huP du hdu d hmem
          rw [hdeq] at this
          exact absurd this (lt_irrefl _)
        rcases Option.isSome_iff_exists.mp hukeys with ⟨m₀, hm₀⟩
        set σq : DState := { σ with queue := rest } with hσq
        have hIq : InvC g s (P ++ [u]) σq := by
          refine ⟨?_, hI.kd, hI.kp, ?_, hI.nn, hI.s0, hI.p0, ?_, ?_, ?_, ?_,
            hI.ach, ?_, ?_, ?_, hI.pfin2, ?_, ?_⟩
          · intro e he
            exact hI.kq e (hrsub e he)
          · intro e he dv hdv
            exact hI.qge e (hrsub e he) dv hdv
          · -- pfin
            intro u' hu'
            rcases List.mem_append.mp hu' with hu' | hu'
            · exact hI.pfin u' hu'
            · simp at hu'
              subst hu'
              exact ⟨d, by rw [← hdeq]; exact hdu⟩
          · -- f1
            intro u' hu' du' hdu' e he
            rcases List.mem_append.mp hu' with hu' | hu'
            · exact hI.f1 u' hu' du' hdu' e (hrsub e he)
            · simp at hu'
              subst hu'
              have hdu'eq : du' = du := (Option.some.inj (hdu.symm.trans hdu')).symm
              rw [hdu'eq, hdeq]
              have hlex := hmin e (hrsub e he)
              have : d ≤ e.1 := lexLE_fst_le hlex
              exact_mod_cast this
          · -- stale
            intro u' hu' du' hdu' d' hd'
            rcases List.mem_append.mp hu' with hu' | hu'
            · exact hI.stale u' hu' du' hdu' d' (hrsub (d', u') hd')
            · simp at hu'
              subst hu'
              have hdu'eq : du' = du := (Option.some.inj (hdu.symm.trans hdu')).symm
              have hd'mem : (d', u') ∈ σ.queue := hrsub _ hd'
              have hle : d ≤ d' := lexLE_fst_le (hmin _ hd'mem)
              have hne : d ≠ d' := by
                have hrel2 := pairwise_erase_rel hI.dvals hmem (d', u')
                  (by rw [← hrest]; exact hd')
                rcases hrel2 with h2 | h2
                · exact h2 rfl
                · exact fun he => (h2 rfl) he.symm
              have : d < d' := lt_of_le_of_ne hle hne
              rw [hdu'eq, hdeq]
              exact_mod_cast this
          · -- dvals
            exact hI.dvals.sublist hrsubl
          · -- rwit
            intro v q hq
            rcases hI.rwit v q hq with h | h
            · exact Or.inl (List.mem_append_left _ h)
            · by_cases hvu : ((q : ℚ), v) = ((d : ℚ), u)
              · have hv : v = u := congrArg Prod.snd hvu
                exact Or.inl (by rw [hv]; exact List.mem_append_right _ (by simp))
              · right
                show ((q : ℚ), v) ∈ rest
                rw [hrest]
                exact (List.mem_erase_of_ne hvu).mpr h
          · -- pv
            intro v u' hvu
            exact List.mem_append_left _ (hI.pv v u' hvu)
          · -- pord
            intro v hv u' hvu
            rcases List.mem_append.mp hv with hv | hv
            · have h1 := hI.pord v hv u' hvu
              have hu'P : u' ∈ P := hI.pv v u' hvu
              rw [List.indexOf_append_of_mem hu'P, List.indexOf_append_of_mem hv]
              exact h1
            · simp at hv
              subst hv
              have hu'P : u' ∈ P := hI.pv v u' hvu
              rw [List.indexOf_append_of_mem hu'P,
                List.indexOf_append_of_not_mem huP]
              have h2 : List.indexOf u' P < P.length := List.indexOf_lt_length.mpr hu'P
              simp
              omega
          · -- pkeys
            intro u' hu'
            rcases List.mem_append.mp hu' with hu' | hu'
            · exact hI.pkeys u' hu'
            · simp at hu'
              subst hu'
              exact hukeys
          · -- pnd
            rw [List.nodup_append]
            exact ⟨hI.pnd, List.nodup_singleton u, by simpa using huP⟩
        have hRq : RelInv g P σq := by
          intro a ha m hm v w hv du' dv hdu' hdv
          exact hR a ha m hm v w hv du' dv hdu' hdv
        have hdxq : dlookup σq.dist u = some ((d : ℚ) : WithTop ℚ) := by
          rw [← hdeq]
          exact hdu
        have hubq : ∀ a ∈ P ++ [u], ∀ da, dlookup σq.dist a = some da →
            da ≤ ((d : ℚ) : WithTop ℚ) := by
          intro a ha da hda
          rcases List.mem_append.mp ha with ha | ha
          · exact hI.f1 a ha da hda (d, u) hmem
          · simp at ha
            subst ha
            have : da = du := (Option.some.inj (hdu.symm.trans hda)).symm
            rw [this, hdeq]
        rcases relaxAll_spec hwf hcl hnn hm₀ m₀ σq (fun e he => he) hIq hRq hdxq
          hubq with ⟨σ₁, hrun₁, hI₁, hR₁, hdx₁, hub₁, hmono₁, hpost₁, hlen₁⟩
        have hR₁' : RelInv g (P ++ [u]) σ₁ := by
          intro a ha m hm v w hv da dv hda hdv
          rcases List.mem_append.mp ha with ha | ha
          · exact hR₁ a ha m hm v w hv da dv hda hdv
          · simp at ha
            subst ha
            have hmm : m = m₀ := (Option.some.inj (hm₀.symm.trans hm)).symm
            subst hmm
            have hdaeq : da = ((d : ℚ) : WithTop ℚ) :=
              (Option.some.inj (hdx₁.symm.trans hda)).symm
            have := hpost₁ (v, w) (mem_of_dlookup hv) dv hdv
            rw [hdaeq, ← WithTop.coe_add]
            exact this
        have hμ₁ : σ₁.queue.length + degSum g (P ++ [u]) ≤ fuel := by
          have hdeg := degSum_append huP hm₀
          have hq₁ : σq.queue.length = rest.length := rfl
          omega
        rcases ih (P ++ [u]) σ₁ hI₁ hR₁' hμ₁ with ⟨σ', P', hrun, hI', hR', hq'⟩
        refine ⟨σ', P', ?_, hI', hR', hq'⟩
        simp only [dloop, hpop, hdu]
        rw [if_neg hstale]
        simp only [hm₀]
        rw [hσq] at hrun₁
        simp only [hrun₁]
        exact hrun

/-! ## The initial state satisfies the invariant -/

theorem initDist_self (g : Graph) (s : Place) :
    dlookup (initDist g s) s = some 0 :=
  dlookup_dinsert_self _ _ _

theorem initDist_ne (g : Graph) {s v : Place} (h : v ≠ s) :
    dlookup (initDist g s) v = (dlookup g v).map fun _ => (⊤ : WithTop ℚ) := by
  unfold initDist
  rw [dlookup_dinsert_ne _ _ (Ne.symm h)]
  exact dlookup_map_const g ⊤ v

theorem initPrev_lookup (g : Graph) (v : Place) :
    dlookup (initPrev g) v = (dlookup g v).map fun _ => (none : Option Place) :=
  dlookup_map_const g none v

theorem init_inv {g : Graph} {s : Place} (hs : (dlookup g s).isSome) :
    InvC g s [] (initState g s) ∧ RelInv g [] (initState g s) := by
  constructor
  · refine ⟨?_, ?_, ?_, ?_, ?_, ?_, ?_, by simp, by simp, by simp,
      List.pairwise_singleton _ _, ?_, ?_, ?_, by simp, ?_, by simp,
      List.nodup_nil⟩
    · -- kq
      intro e he
      rcases e with ⟨ed, ev⟩
      simp [initState] at he
      show (dlookup g ev).isSome
      rw [he.2]
      exact hs
    · -- kd
      intro v
      by_cases hv : v = s
      · rw [hv, show (initState g s).dist = initDist g s from rfl, initDist_self]
        simp [hs]
      · rw [show (initState g s).dist = initDist g s from rfl, initDist_ne g hv]
        simp
    · -- kp
      intro v
      rw [show (initState g s).prev = initPrev g from rfl, initPrev_lookup]
      simp
    · -- qge
      intro e he dv hdv
      rcases e with ⟨ed, ev⟩
      simp [initState] at he
      have h1 : ev = s := he.2
      have h2 : ed = 0 := he.1
      have hdv2 : dlookup (initState g s).dist ev = some dv := hdv
      rw [h1, show (initState g s).dist = initDist g s from rfl, initDist_self]
        at hdv2
      have hdveq : dv = 0 := (Option.some.inj hdv2).symm
      show dv ≤ ((ed : ℚ) : WithTop ℚ)
      rw [hdveq, h2]
      simp
    · -- nn
      intro v dv hdv
      by_cases hv : v = s
      · rw [hv, show (initState g s).dist = initDist g s from rfl, initDist_self]
          at hdv
        have hdveq : dv = 0 := (Option.some.inj hdv).symm
        rw [hdveq]
      · rw [show (initState g s).dist = initDist g s from rfl, initDist_ne g hv]
          at hdv
        cases hg : dlookup g v with
        | none => rw [hg] at hdv; simp at hdv
        | some m =>
          rw [hg] at hdv
          simp at hdv
          rw [← hdv]
          exact le_top
    · -- s0
      exact initDist_self g s
    · -- p0
      rw [show (initState g s).prev = initPrev g from rfl, initPrev_lookup]
      rcases Option.isSome_iff_exists.mp hs with ⟨m, hm⟩
      rw [hm]
      rfl
    · -- ach
      intro v q hq
      by_cases hv : v = s
      · rw [hv, show (initState g s).dist = initDist g s from rfl, initDist_self]
          at hq
        have hq0 : ((q : ℚ) : WithTop ℚ) = 0 := (Option.some.inj hq).symm
        have hq1 : q = 0 := by exact_mod_cast hq0
        refine ⟨[v], by simp [hv], by simp, ?_⟩
        rw [pathW_single, hq1]
      · rw [show (initState g s).dist = initDist g s from rfl, initDist_ne g hv]
          at hq
        cases hg : dlookup g v with
        | none => rw [hg] at hq; simp at hq
        | some m =>
          rw [hg] at hq
          exact absurd hq (by simp)
    · -- rwit
      intro v q hq
      by_cases hv : v = s
      · rw [hv, show (initState g s).dist = initDist g s from rfl, initDist_self]
          at hq
        have hq0 : ((q : ℚ) : WithTop ℚ) = 0 := (Option.some.inj hq).symm
        have hq1 : q = 0 := by exact_mod_cast hq0
        right
        rw [hq1, hv]
        simp [initState]
      · rw [show (initState g s).dist = initDist g s from rfl, initDist_ne g hv]
          at hq
        cases hg : dlookup g v with
        | none => rw [hg] at hq; simp at hq
        | some m =>
          rw [hg] at hq
          exact absurd hq (by simp)
    · -- pv
      intro v u hvu
      rw [show (initState g s).prev = initPrev g from rfl, initPrev_lookup] at hvu
      cases hg : dlookup g v with
      | none => rw [hg] at hvu; simp at hvu
      | some m =>
        rw [hg] at hvu
        simp at hvu
    · -- pfin2
      intro v u hvu
      rw [show (initState g s).prev = initPrev g from rfl, initPrev_lookup] at hvu
      cases hg : dlookup g v with
      | none => rw [hg] at hvu; simp at hvu
      | some m =>
        rw [hg] at hvu
        simp at hvu
  · intro u hu
    simp at hu

/-! ## Consequences of the invariant at loop exit -/

theorem rel_full {g : Graph} {s : Place} {P : List Place} {σ : DState}
    (hI : InvC g s P σ) (hR : RelInv g P σ) (hq : σ.queue = []) :
    ∀ u m, dlookup g u = some m → ∀ v w, dlookup m v = some w →
      ∀ du dv, dlookup σ.dist u = some du → dlookup σ.dist v = some dv →
        dv ≤ du + ((w : ℚ) : WithTop ℚ) := by
  intro u m hm v w hv du dv hdu hdv
  rcases eq_or_ne du ⊤ with h | h
  · rw [h, top_add]
    exact le_top
  · rcases WithTop.ne_top_iff_exists.mp h with ⟨q, hq'⟩
    rcases hI.rwit u q (by rw [← hq'] at hdu; exact hdu) with hP | hmem
    · exact hR u hP m hm v w hv du dv hdu hdv
    · rw [hq] at hmem
      simp at hmem

theorem dist_le_path {g : Graph} {s : Place} {P : List Place} {σ : DState}
    (hI : InvC g s P σ) (hR : RelInv g P σ) (hq : σ.queue = [])
    (hcl : ClosedB g) :
    ∀ (p : List Place) (a v : Place) (wp : ℚ) (da dv : WithTop ℚ),
      p.head? = some a → p.getLast? = some v → pathW g p = some wp →
      dlookup σ.dist a = some da → dlookup σ.dist v = some dv →
      dv ≤ da + ((wp : ℚ) : WithTop ℚ) := by
  intro p
  induction p with
  | nil => intro a v wp da dv hh; simp at hh
  | cons x rest ih =>
    intro a v wp da dv hh hl hpw hda hdv
    simp at hh
    subst hh
    cases rest with
    | nil =>
      simp at hl
      subst hl
      have hw0 : wp = 0 := by
        have h0 : pathW g [x] = some 0 := rfl
        exact (Option.some.inj (h0.symm.trans hpw)).symm
      have hdd : dv = da := (Option.some.inj (hda.symm.trans hdv)).symm
      rw [hw0, hdd]
      simp
    | cons b rest' =>
      rcases pathW_cons_cons_iff.mp hpw with ⟨m, wab, r, hm, hw, hr, rfl⟩
      have hbkeys : (dlookup g b).isSome :=
        hcl _ (mem_of_dlookup hm) _ (mem_of_dlookup hw)
      rcases Option.isSome_iff_exists.mp ((hI.kd b).mpr hbkeys) with ⟨db, hdb⟩
      have hstep : db ≤ da + ((wab : ℚ) : WithTop ℚ) :=
        rel_full hI hR hq x m hm b wab hw da db hda hdb
      have hrec : dv ≤ db + ((r : ℚ) : WithTop ℚ) := by
        have hl' : (b :: rest').getLast? = some v := by
          rw [List.getLast?_cons_cons] at hl
          exact hl
        exact ih b v r db dv rfl hl' hr hdb hdv
      calc dv ≤ db + ((r : ℚ) : WithTop ℚ) := hrec
        _ ≤ (da + ((wab : ℚ) : WithTop ℚ)) + ((r : ℚ) : WithTop ℚ) :=
          add_le_add_right hstep _
        _ = da + ((wab + r : ℚ) : WithTop ℚ) := by
          rw [WithTop.coe_add, add_assoc]

theorem dist_top_of_unreach {g : Graph} {s t : Place} {P : List Place}
    {σ : DState} (hI : InvC g s P σ) (hcl : ClosedB g) (hnn : NonnegB g)
    (hs : (dlookup g s).isSome) (ht : (dlookup g t).isSome)
    (hunreach : t ∉ reachSet g s) : dlookup σ.dist t = some ⊤ := by
  rcases Option.isSome_iff_exists.mp ((hI.kd t).mpr ht) with ⟨dt, hdt⟩
  rcases eq_or_ne dt ⊤ with h | h
  · rw [h] at hdt
    exact hdt
  · exfalso
    rcases WithTop.ne_top_iff_exists.mp h with ⟨q, hq'⟩
    rcases hI.ach t q (by rw [← hq'] at hdt; exact hdt) with ⟨p, hh, hl, hpw⟩
    exact hunreach (reachSet_complete hcl hnn hs hpw hh hl)

theorem prev_none_of_top {g : Graph} {s : Place} {P : List Place} {σ : DState}
    (hI : InvC g s P σ) {v : Place} (hv : (dlookup g v).isSome)
    (htop : dlookup σ.dist v = some ⊤) : dlookup σ.prev v = some none := by
  rcases Option.isSome_iff_exists.mp ((hI.kp v).mpr hv) with ⟨pr, hpr⟩
  cases pr with
  | none => exact hpr
  | some u =>
    exfalso
    rcases hI.pfin2 v u hpr with ⟨q, hq⟩
    have : (⊤ : WithTop ℚ) = ((q : ℚ) : WithTop ℚ) :=
      Option.some.inj (htop.symm.trans hq)
    exact WithTop.coe_ne_top this.symm

theorem P_length_le {g : Graph} {s : Place} {P : List Place} {σ : DState}
    (hI : InvC g s P σ) : P.length ≤ g.length := by
  have h := nodup_length_le hI.pnd (fun u hu =>
    (dlookup_isSome_iff g u).mp (hI.pkeys u hu))
  simpa using h

theorem build_ok {g : Graph} {s : Place} {P : List Place} {σ : DState}
    (hI : InvC g s P σ) (hq : σ.queue = []) :
    ∀ (k : Nat) (v : Place) (sp : List Place), (dlookup g v).isSome →
      (v ∈ P → P.indexOf v + 1 ≤ k) → 1 ≤ k →
      ∃ sp', buildLoop σ.prev k (some v) sp = .ok sp' := by
  intro k
  induction k with
  | zero => intro v sp _ _ h1; omega
  | succ k ih =>
    intro v sp hvk hvP _
    have hprev : (dlookup σ.prev v).isSome := (hI.kp v).mpr hvk
    rcases Option.isSome_iff_exists.mp hprev with ⟨pr, hpr⟩
    cases pr with
    | none =>
      refine ⟨sp ++ [v], ?_⟩
      simp only [buildLoop, hpr]
    | some u =>
      have huP : u ∈ P := hI.pv v u hpr
      have hvPmem : v ∈ P := by
        rcases hI.pfin2 v u hpr with ⟨q, hq'⟩
        rcases hI.rwit v q hq' with h | h
        · exact h
        · rw [hq] at h
          simp at h
      have hord := hI.pord v hvPmem u hpr
      have hvk' := hvP hvPmem
      have hukeys := hI.pkeys u huP
      have h1 : P.indexOf u + 1 ≤ k := by omega
      rcases ih u (sp ++ [v]) hukeys (fun _ => h1) (by omega) with ⟨sp', hsp'⟩
      refine ⟨sp', ?_⟩
      simp only [buildLoop, hpr]
      exact hsp'

theorem buildLoop_none {prev : Dict (Option Place)} {v : Place}
    (hpr : dlookup prev v = some none) (k : Nat) :
    buildLoop prev (k + 1) (some v) [] = .ok [v] := by
  simp only [buildLoop, hpr, List.nil_append]

theorem dijkstra_eval {g : Graph} {s t : Place} {σ : DState}
    (hrun : dloop g (dfuel g) (initState g s) = .ok σ)
    {sp : List Place}
    (hb : buildLoop σ.prev (walkFuel g) (some t) [] = .ok sp)
    {dt : WithTop ℚ} (hd : dlookup σ.dist t = some dt) :
    dijkstra_shortest_path g s t = .ok (sp.reverse, dt) := by
  unfold dijkstra_shortest_path
  rw [hrun]
  dsimp only
  rw [hb]
  dsimp only
  rw [hd]

theorem dijkstra_run {g : Graph} (hwf : WFG g) (hcl : ClosedB g)
    (hnn : NonnegB g) {s : Place} (hs : (dlookup g s).isSome) :
    ∃ σ P, dloop g (dfuel g) (initState g s) = .ok σ ∧ InvC g s P σ ∧
      RelInv g P σ ∧ σ.queue = [] := by
  rcases init_inv hs with ⟨hI0, hR0⟩
  have hμ : (initState g s).queue.length + degSum g [] ≤ dfuel g := by
    simp [initState, dfuel]
  rcases dloop_spec hwf hcl hnn (dfuel g) [] (initState g s) hI0 hR0 hμ with
    ⟨σ, P, hrun, hI, hR, hq⟩
  exact ⟨σ, P, hrun, hI, hR, hq⟩

/-! ## Key-error freedom under closed neighbor references alone -/

theorem inv0_of_invC {g : Graph} {s : Place} {P : List Place} {σ : DState}
    (hI : InvC g s P σ) : Inv0 g σ :=
  ⟨hI.kq, hI.kd, hI.kp, fun v u h => hI.pkeys u (hI.pv v u h)⟩

theorem relaxAll_inv0 {g : Graph} (hcl : ClosedB g) {x : Place} {d : ℚ}
    {m₀ : NMap} (hm₀ : dlookup g x = some m₀) :
    ∀ (l : List (Place × ℚ)) (σ : DState), (∀ e ∈ l, e ∈ m₀) → Inv0 g σ →
      ∃ σ', relaxAll d x l σ = .ok σ' ∧ Inv0 g σ' := by
  intro l
  induction l with
  | nil => intro σ _ h0; exact ⟨σ, rfl, h0⟩
  | cons e rest ih =>
    rcases e with ⟨n, w⟩
    intro σ hsub h0
    have hnw : (n, w) ∈ m₀ := hsub (n, w) (List.mem_cons_self _ _)
    have hnkeys : (dlookup g n).isSome := hcl _ (mem_of_dlookup hm₀) _ hnw
    have hndist : (dlookup σ.dist n).isSome := (h0.2.1 n).mpr hnkeys
    rcases Option.isSome_iff_exists.mp hndist with ⟨dn, hdn⟩
    have hsub' : ∀ e ∈ rest, e ∈ m₀ :=
      fun e he => hsub e (List.mem_cons_of_mem _ he)
    by_cases hcond : ((d + w : ℚ) : WithTop ℚ) < dn
    · set σ₁ : DState :=
        ⟨σ.queue ++ [(d + w, n)], dinsert σ.dist n ((d + w : ℚ) : WithTop ℚ),
         dinsert σ.prev n (some x)⟩ with hσ₁
      have h1 : Inv0 g σ₁ := by
        refine ⟨?_, ?_, ?_, ?_⟩
        · intro e he
          rcases List.mem_append.mp he with he | he
          · exact h0.1 e he
          · rcases e with ⟨ed, ev⟩
            simp at he
            show (dlookup g ev).isSome
            rw [he.2]
            exact hnkeys
        · intro v
          rw [show σ₁.dist = dinsert σ.dist n ((d + w : ℚ) : WithTop ℚ) from rfl,
            isSome_dinsert_of_present _ hndist v]
          exact h0.2.1 v
        · intro v
          have hnprev : (dlookup σ.prev n).isSome := (h0.2.2.1 n).mpr hnkeys
          rw [show σ₁.prev = dinsert σ.prev n (some x) from rfl,
            isSome_dinsert_of_present _ hnprev v]
          exact h0.2.2.1 v
        · intro v u hvu
          by_cases hv : v = n
          · rw [hv, show σ₁.prev = dinsert σ.prev n (some x) from rfl,
              dlookup_dinsert_self] at hvu
            have : u = x := (Option.some.inj (Option.some.inj hvu)).symm
            rw [this]
            simp [hm₀]
          · rw [show σ₁.prev = dinsert σ.prev n (some x) from rfl,
              dlookup_dinsert_ne _ _ (Ne.symm hv)] at hvu
            exact h0.2.2.2 v u hvu
      rcases ih σ₁ hsub' h1 with ⟨σ', hrun, h'⟩
      refine ⟨σ', ?_, h'⟩
      simp only [relaxAll, hdn]
      rw [if_pos hcond]
      exact hrun
    · rcases ih σ hsub' h0 with ⟨σ', hrun, h'⟩
      refine ⟨σ', ?_, h'⟩
      simp only [relaxAll, hdn]
      rw [if_neg hcond]
      exact hrun

theorem dloop_inv0 {g : Graph} (hcl : ClosedB g) :
    ∀ (fuel : Nat) (σ : DState), Inv0 g σ →
      (∃ σ', dloop g fuel σ = .ok σ' ∧ Inv0 g σ') ∨
        dloop g fuel σ = .error .fuelOut := by
  intro fuel
  induction fuel with
  | zero =>
    intro σ h0
    cases hpop : popMin σ.queue with
    | none => exact Or.inl ⟨σ, by simp only [dloop, hpop], h0⟩
    | some pr => exact Or.inr (by simp only [dloop, hpop])
  | succ fuel ih =>
    intro σ h0
    cases hpop : popMin σ.queue with
    | none => exact Or.inl ⟨σ, by simp only [dloop, hpop], h0⟩
    | some pr =>
      rcases pr with ⟨⟨d, u⟩, rest⟩
      rcases popMin_some hpop with ⟨hmem, hrest, -⟩
      have hukeys : (dlookup g u).isSome := h0.1 (d, u) hmem
      have hudist : (dlookup σ.dist u).isSome := (h0.2.1 u).mpr hukeys
      rcases Option.isSome_iff_exists.mp hudist with ⟨du, hdu⟩
      have hrsub : ∀ e ∈ rest, e ∈ σ.queue := by
        intro e he
        rw [hrest] at he
        exact List.mem_of_mem_erase he
      have h0q : Inv0 g { σ with queue := rest } :=
        ⟨fun e he => h0.1 e (hrsub e he), h0.2.1, h0.2.2.1, h0.2.2.2⟩
      by_cases hstale : du < (d : WithTop ℚ)
      · rcases ih { σ with queue := rest } h0q with ⟨σ', hrun, h'⟩ | hrun
        · refine Or.inl ⟨σ', ?_, h'⟩
          simp only [dloop, hpop, hdu]
          rw [if_pos hstale]
          exact hrun
        · refine Or.inr ?_
          simp only [dloop, hpop, hdu]
          rw [if_pos hstale]
          exact hrun
      · rcases Option.isSome_iff_exists.mp hukeys with ⟨m₀, hm₀⟩
        rcases relaxAll_inv0 hcl hm₀ m₀ { σ with queue := rest }
          (fun e he => he) h0q with ⟨σ₁, hrun₁, h₁⟩
        rcases ih σ₁ h₁ with ⟨σ', hrun, h'⟩ | hrun
        · refine Or.inl ⟨σ', ?_, h'⟩
          simp only [dloop, hpop, hdu]
          rw [if_neg hstale]
          simp only [hm₀]
          rw [hrun₁]
          exact hrun
        · refine Or.inr ?_
          simp only [dloop, hpop, hdu]
          rw [if_neg hstale]
          simp only [hm₀]
          rw [hrun₁]
          exact hrun

theorem buildLoop_no_keyError {g : Graph} {prev : Dict (Option Place)}
    (hkp : ∀ v : Place, (dlookup prev v).isSome ↔ (dlookup g v).isSome)
    (hpv : ∀ v u : Place, dlookup prev v = some (some u) → (dlookup g u).isSome) :
    ∀ (k : Nat) (cur : Option Place) (sp : List Place),
      (∀ v, cur = some v → (dlookup g v).isSome) →
      (∃ sp', buildLoop prev k cur sp = .ok sp') ∨
        buildLoop prev k cur sp = .error .fuelOut := by
  intro k
  induction k with
  | zero =>
    intro cur sp hcur
    cases cur with
    | none => exact Or.inl ⟨sp, rfl⟩
    | some v => exact Or.inr rfl
  | succ k ih =>
    intro cur sp hcur
    cases cur with
    | none => exact Or.inl ⟨sp, rfl⟩
    | some v =>
      have hvk : (dlookup g v).isSome := hcur v rfl
      have hprev : (dlookup prev v).isSome := (hkp v).mpr hvk
      rcases Option.isSome_iff_exists.mp hprev with ⟨pr, hpr⟩
      have hcur' : ∀ u, pr = some u → (dlookup g u).isSome := by
        intro u hu
        exact hpv v u (by rw [hpr, hu])
      rcases ih pr (sp ++ [v]) hcur' with ⟨sp', hsp'⟩ | hrun
      · refine Or.inl ⟨sp', ?_⟩
        simp only [buildLoop, hpr]
        exact hsp'
      · refine Or.inr ?_
        simp only [buildLoop, hpr]
        exact hrun

/-! ## Lookup characterization of the mutation operations -/

theorem setEdge_self {g : Graph} {a : Place} {m : NMap}
    (hm : dlookup g a = some m) (b : Place) (w : ℚ) :
    dlookup (setEdge g a b w) a = some (dinsert m b w) := by
  unfold setEdge
  rw [hm]
  exact dlookup_dinsert_self _ _ _

theorem setEdge_ne {g : Graph} {a v : Place} (b : Place) (w : ℚ)
    (hv : v ≠ a) : dlookup (setEdge g a b w) v = dlookup g v := by
  unfold setEdge
  cases h : dlookup g a with
  | none => rfl
  | some m => exact dlookup_dinsert_ne _ _ (Ne.symm hv)

theorem eraseEdge_self {g : Graph} {a : Place} {m : NMap}
    (hm : dlookup g a = some m) (b : Place) :
    dlookup (eraseEdge g a b) a = some (derase m b) := by
  unfold eraseEdge
  rw [hm]
  exact dlookup_dinsert_self _ _ _

theorem eraseEdge_ne {g : Graph} {a v : Place} (b : Place)
    (hv : v ≠ a) : dlookup (eraseEdge g a b) v = dlookup g v := by
  unfold eraseEdge
  cases h : dlookup g a with
  | none => rfl
  | some m => exact dlookup_dinsert_ne _ _ (Ne.symm hv)

theorem mem_dinsert {β : Type} {l : Dict β} {a : Place} {b : β}
    {p : Place × β} (h : p ∈ dinsert l a b) : p ∈ l ∨ p = (a, b) := by
  induction l with
  | nil =>
    simp [dinsert] at h
    exact Or.inr (by rw [h])
  | cons kv rest ih =>
    by_cases hk : kv.1 = a
    · rw [show dinsert (kv :: rest) a b = (kv.1, b) :: rest by
        simp [dinsert, hk]] at h
      rcases List.mem_cons.mp h with h | h
      · exact Or.inr (by rw [h, hk])
      · exact Or.inl (List.mem_cons_of_mem _ h)
    · rw [show dinsert (kv :: rest) a b = kv :: dinsert rest a b by
        simp [dinsert, hk]] at h
      rcases List.mem_cons.mp h with h | h
      · exact Or.inl (by rw [h]; exact List.mem_cons_self _ _)
      · rcases ih h with h | h
        · exact Or.inl (List.mem_cons_of_mem _ h)
        · exact Or.inr h

theorem mem_derase {β : Type} {l : Dict β} {a : Place} {p : Place × β}
    (h : p ∈ derase l a) : p ∈ l := by
  induction l with
  | nil => simp [derase] at h
  | cons kv rest ih =>
    by_cases hk : kv.1 = a
    · rw [show derase (kv :: rest) a = rest by simp [derase, hk]] at h
      exact List.mem_cons_of_mem _ h
    · rw [show derase (kv :: rest) a = kv :: derase rest a by
        simp [derase, hk]] at h
      rcases List.mem_cons.mp h with h | h
      · exact h ▸ List.mem_cons_self _ _
      · exact List.mem_cons_of_mem _ (ih h)

theorem dlookup_map_val {β γ : Type} (f : β → γ) (l : Dict β) (v : Place) :
    dlookup (l.map fun p => (p.1, f p.2)) v = (dlookup l v).map f := by
  induction l with
  | nil => simp [dlookup]
  | cons kv rest ih =>
    by_cases hk : kv.1 = v
    · simp [dlookup, hk]
    · simp [dlookup, hk, ih]

/-! ## The mutation operations preserve well-formedness -/

theorem WF_setEdge {g : Graph} (hwf : WFG g) (a b : Place) (w : ℚ) :
    WFG (setEdge g a b w) := by
  cases hm : dlookup g a with
  | none => unfold setEdge; rw [hm]; exact hwf
  | some m =>
    have hdef : setEdge g a b w = dinsert g a (dinsert m b w) := by
      unfold setEdge; rw [hm]
    rw [hdef]
    constructor
    · rw [keys_dinsert_present _ (by simp [hm])]
      exact hwf.1
    · intro p hp
      rcases mem_dinsert hp with hp | hp
      · exact hwf.2 p hp
      · rw [hp]
        exact nodup_keys_dinsert b w (hwf.2 _ (mem_of_dlookup hm))

theorem WF_eraseEdge {g : Graph} (hwf : WFG g) (a b : Place) :
    WFG (eraseEdge g a b) := by
  cases hm : dlookup g a with
  | none => unfold eraseEdge; rw [hm]; exact hwf
  | some m =>
    have hdef : eraseEdge g a b = dinsert g a (derase m b) := by
      unfold eraseEdge; rw [hm]
    rw [hdef]
    constructor
    · rw [keys_dinsert_present _ (by simp [hm])]
      exact hwf.1
    · intro p hp
      rcases mem_dinsert hp with hp | hp
      · exact hwf.2 p hp
      · rw [hp]
        show ((derase m b).map Prod.fst).Nodup
        rw [keys_derase]
        exact (hwf.2 _ (mem_of_dlookup hm)).erase b

theorem WF_add_route_core {g : Graph} (hwf : WFG g) (a b : Place) (w : ℚ) :
    WFG (add_route_core g a b w) :=
  WF_setEdge (WF_setEdge hwf a b w) b a w

theorem WF_add_route {g : Graph} (hwf : WFG g) (a b : Place) (w : ℚ) :
    WFG (add_route g a b w) := by
  unfold add_route
  by_cases h : memB g a && memB g b
  · rw [if_pos h]
    exact WF_add_route_core hwf a b w
  · rw [if_neg h]
    exact hwf

theorem WF_remove_route {g : Graph} (hwf : WFG g) (a b : Place) :
    WFG (remove_route g a b) := by
  unfold remove_route
  by_cases h : memB g a && memB g b
  · rw [if_pos h]
    cases hm : dlookup g a with
    | none => exact hwf
    | some ma =>
      show WFG (if (dlookup ma b).isSome = true then
        eraseEdge (eraseEdge g a b) b a else g)
      by_cases hb : (dlookup ma b).isSome
      · rw [if_pos hb]
        exact WF_eraseEdge (WF_eraseEdge hwf a b) b a
      · rw [if_neg hb]
        exact hwf
  · rw [if_neg h]
    exact hwf

theorem WF_remove_place {g : Graph} (hwf : WFG g) (id : Place) :
    WFG (remove_place g id) := by
  unfold remove_place
  by_cases h : memB g id
  · rw [if_pos h]
    constructor
    · have hkeys : ((derase g id).map fun p => (p.1, derase p.2 id)).map Prod.fst
          = (derase g id).map Prod.fst := by
        rw [List.map_map]
        rfl
      rw [hkeys, keys_derase]
      exact hwf.1.erase id
    · intro p hp
      rcases List.mem_map.mp hp with ⟨q, hq, hqp⟩
      rw [← hqp]
      show ((derase q.2 id).map Prod.fst).Nodup
      rw [keys_derase]
      exact (hwf.2 q (mem_derase hq)).erase id
  · rw [if_neg h]
    exact hwf

theorem WF_add_place {g : Graph} (hwf : WFG g) (id : Place)
    (routes : List (Place × ℚ)) : WFG (add_place g id routes) := by
  unfold add_place
  by_cases h : memB g id
  · rw [if_pos h]
    exact hwf
  · rw [if_neg h]
    have hbase : WFG (dinsert g id []) := by
      constructor
      · rw [keys_dinsert_absent _ (by simpa [memB] using h)]
        refine List.Nodup.append hwf.1 (List.nodup_singleton id) ?_
        intro x hx hx'
        simp at hx'
        rw [hx'] at hx
        have hid : ¬ (dlookup g id).isSome := by simpa [memB] using h
        exact hid ((dlookup_isSome_iff g id).mpr hx)
      · intro p hp
        rcases mem_dinsert hp with hp | hp
        · exact hwf.2 p hp
        · rw [hp]
          simp
    revert hbase
    generalize dinsert g id [] = g0
    induction routes generalizing g0 with
    | nil => intro h0; exact h0
    | cons nw rest ih =>
      intro h0
      simp only [List.foldl_cons]
      by_cases hmem : memB g0 nw.1
      · rw [if_pos hmem]
        exact ih _ (WF_add_route_core h0 id nw.1 nw.2)
      · rw [if_neg hmem]
        exact ih _ h0

/-! ## The mutation operations preserve symmetry -/

theorem symmL_of_symmB {g : Graph} (hsym : SymmB g) : SymmL g := by
  intro a m b w hma hmb
  have h := hsym (a, m) (mem_of_dlookup hma) (b, w) (mem_of_dlookup hmb)
  cases hb : dlookup g b with
  | none => rw [hb] at h; simp at h
  | some m' =>
    rw [hb] at h
    simp at h
    exact ⟨m', rfl, h⟩

theorem symmB_of_symmL {g : Graph} (hwf : WFG g) (hsym : SymmL g) : SymmB g := by
  intro p hp e he
  have hpl : dlookup g p.1 = some p.2 := dlookup_of_mem hwf.1 hp
  have hel : dlookup p.2 e.1 = some e.2 := dlookup_of_mem (hwf.2 p hp) he
  rcases hsym p.1 p.2 e.1 e.2 hpl hel with ⟨m', hm', hma⟩
  rw [hm']
  simpa using hma

theorem symmL_add_route_core {g : Graph} (hsym : SymmL g)
    {a b : Place} (ha : (dlookup g a).isSome) (hb : (dlookup g b).isSome)
    (w : ℚ) : SymmL (add_route_core g a b w) := by
  rcases Option.isSome_iff_exists.mp ha with ⟨ma, hma⟩
  rcases Option.isSome_iff_exists.mp hb with ⟨mb, hmb⟩
  by_cases hab : a = b
  · rw [← hab] at hmb ⊢
    have h1 : dlookup (setEdge g a a w) a = some (dinsert ma a w) :=
      setEdge_self hma a w
    have hga' : dlookup (add_route_core g a a w) a =
        some (dinsert (dinsert ma a w) a w) := setEdge_self h1 a w
    have hgo : ∀ v, v ≠ a →
        dlookup (add_route_core g a a w) v = dlookup g v := by
      intro v hv
      unfold add_route_core
      rw [setEdge_ne a w hv, setEdge_ne a w hv]
    intro x m y w' hx hyw
    by_cases hxa : x = a
    · rw [hxa] at hx ⊢
      rw [hga'] at hx
      have hmeq : m = dinsert (dinsert ma a w) a w := (Option.some.inj hx).symm
      rw [hmeq] at hyw
      by_cases hya : y = a
      · rw [hya] at hyw ⊢
        rw [dlookup_dinsert_self] at hyw
        have hw' : w' = w := (Option.some.inj hyw).symm
        rw [hw']
        exact ⟨_, hga', dlookup_dinsert_self _ _ _⟩
      · rw [dlookup_dinsert_ne _ _ (fun he => hya he.symm),
          dlookup_dinsert_ne _ _ (fun he => hya he.symm)] at hyw
        rcases hsym a ma y w' hma hyw with ⟨m', hm', hmx⟩
        refine ⟨m', ?_, hmx⟩
        rw [hgo y hya]
        exact hm'
    · rw [hgo x hxa] at hx
      by_cases hya : y = a
      · rw [hya] at hyw ⊢
        rcases hsym x m a w' hx hyw with ⟨m', hm', hmx⟩
        have hm'eq : m' = ma := (Option.some.inj (hma.symm.trans hm')).symm
        refine ⟨dinsert (dinsert ma a w) a w, hga', ?_⟩
        rw [dlookup_dinsert_ne _ _ (fun he => hxa he.symm),
          dlookup_dinsert_ne _ _ (fun he => hxa he.symm)]
        rw [hm'eq] at hmx
        exact hmx
      · rcases hsym x m y w' hx hyw with ⟨m', hm', hmx⟩
        refine ⟨m', ?_, hmx⟩
        rw [hgo y hya]
        exact hm'
  · have h1a : dlookup (setEdge g a b w) a = some (dinsert ma b w) :=
      setEdge_self hma b w
    have h1b : dlookup (setEdge g a b w) b = some mb :=
      (setEdge_ne b w (Ne.symm hab)).trans hmb
    have hga' : dlookup (add_route_core g a b w) a = some (dinsert ma b w) := by
      unfold add_route_core
      rw [setEdge_ne a w hab]
      exact h1a
    have hgb' : dlookup (add_route_core g a b w) b = some (dinsert mb a w) :=
      setEdge_self h1b a w
    have hgo : ∀ v, v ≠ a → v ≠ b →
        dlookup (add_route_core g a b w) v = dlookup g v := by
      intro v hva hvb
      unfold add_route_core
      rw [setEdge_ne a w hvb, setEdge_ne b w hva]
    intro x m y w' hx hyw
    by_cases hxa : x = a
    · rw [hxa] at hx ⊢
      rw [hga'] at hx
      have hmeq : m = dinsert ma b w := (Option.some.inj hx).symm
      rw [hmeq] at hyw
      by_cases hyb : y = b
      · rw [hyb] at hyw ⊢
        rw [dlookup_dinsert_self] at hyw
        have hw' : w' = w := (Option.some.inj hyw).symm
        rw [hw']
        exact ⟨_, hgb', dlookup_dinsert_self _ _ _⟩
      · rw [dlookup_dinsert_ne _ _ (fun he => hyb he.symm)] at hyw
        rcases hsym a ma y w' hma hyw with ⟨m', hm', hmx⟩
        by_cases hya : y = a
        · rw [hya] at hm' ⊢
          have hm'eq : m' = ma := (Option.some.inj (hma.symm.trans hm')).symm
          refine ⟨dinsert ma b w, hga', ?_⟩
          rw [dlookup_dinsert_ne _ _ (Ne.symm hab)]
          rw [hm'eq] at hmx
          exact hmx
        · refine ⟨m', ?_, hmx⟩
          rw [hgo y hya hyb]
          exact hm'
    · by_cases hxb : x = b
      · rw [hxb] at hx ⊢
        rw [hgb'] at hx
        have hmeq : m = dinsert mb a w := (Option.some.inj hx).symm
        rw [hmeq] at hyw
        by_cases hya : y = a
        · rw [hya] at hyw ⊢
          rw [dlookup_dinsert_self] at hyw
          have hw' : w' = w := (Option.some.inj hyw).symm
          rw [hw']
          exact ⟨_, hga', dlookup_dinsert_self _ _ _⟩
        · rw [dlookup_dinsert_ne _ _ (fun he => hya he.symm)] at hyw
          rcases hsym b mb y w' hmb hyw with ⟨m', hm', hmx⟩
          by_cases hyb : y = b
          · rw [hyb] at hm' ⊢
            have hm'eq : m' = mb := (Option.some.inj (hmb.symm.trans hm')).symm
            refine ⟨dinsert mb a w, hgb', ?_⟩
            rw [dlookup_dinsert_ne _ _ hab]
            rw [hm'eq] at hmx
            exact hmx
          · refine ⟨m', ?_, hmx⟩
            rw [hgo y hya hyb]
            exact hm'
      · rw [hgo x hxa hxb] at hx
        rcases hsym x m y w' hx hyw with ⟨m', hm', hmx⟩
        by_cases hya : y = a
        · rw [hya] at hm' ⊢
          have hm'eq : m' = ma := (Option.some.inj (hma.symm.trans hm')).symm
          refine ⟨dinsert ma b w, hga', ?_⟩
          rw [dlookup_dinsert_ne _ _ (fun he => hxb he.symm)]
          rw [hm'eq] at hmx
          exact hmx
        · by_cases hyb : y = b
          · rw [hyb] at hm' ⊢
            have hm'eq : m' = mb := (Option.some.inj (hmb.symm.trans hm')).symm
            refine ⟨dinsert mb a w, hgb', ?_⟩
            rw [dlookup_dinsert_ne _ _ (fun he => hxa he.symm)]
            rw [hm'eq] at hmx
            exact hmx
          · refine ⟨m', ?_, hmx⟩
            rw [hgo y hya hyb]
            exact hm'

theorem nodup_keys_derase {β : Type} {m : Dict β}
    (h : (m.map Prod.fst).Nodup) (b : Place) :
    ((derase m b).map Prod.fst).Nodup := by
  rw [keys_derase]
  exact h.erase b

theorem dlookup_map_derase (l : Graph) (id v : Place) :
    dlookup (l.map fun p => (p.1, derase p.2 id)) v =
      (dlookup l v).map fun mm => derase mm id := by
  induction l with
  | nil => simp [dlookup]
  | cons kv rest ih =>
    by_cases hk : kv.1 = v
    · simp [dlookup, hk]
    · simp [dlookup, hk, ih]

theorem symmL_remove_place {g : Graph} (hwf : WFG g) (hsym : SymmL g)
    (id : Place) : SymmL (remove_place g id) := by
  unfold remove_place
  by_cases hg : memB g id
  · rw [if_pos hg]
    intro x m y w' hx hyw
    rw [dlookup_map_derase] at hx
    have hxid : x ≠ id := by
      intro he
      rw [he, dlookup_derase_self hwf.1] at hx
      simp at hx
    rw [dlookup_derase_ne _ (fun he => hxid he.symm)] at hx
    cases hgx : dlookup g x with
    | none => rw [hgx] at hx; simp at hx
    | some mx =>
      rw [hgx] at hx
      simp at hx
      have hmeq : m = derase mx id := hx.symm
      rw [hmeq] at hyw
      have hmxnd : (mx.map Prod.fst).Nodup := hwf.2 (x, mx) (mem_of_dlookup hgx)
      have hyid : y ≠ id := by
        intro he
        rw [he, dlookup_derase_self hmxnd] at hyw
        simp at hyw
      rw [dlookup_derase_ne _ (fun he => hyid he.symm)] at hyw
      rcases hsym x mx y w' hgx hyw with ⟨m', hm', hmx⟩
      refine ⟨derase m' id, ?_, ?_⟩
      · rw [dlookup_map_derase, dlookup_derase_ne _ (fun he => hyid he.symm), hm']
        rfl
      · rw [dlookup_derase_ne _ (fun he => hxid he.symm)]
        exact hmx
  · rw [if_neg hg]
    exact hsym

theorem symmL_remove_route {g : Graph} (hwf : WFG g) (hsym : SymmL g)
    (a b : Place) : SymmL (remove_route g a b) := by
  unfold remove_route
  by_cases hg : memB g a && memB g b
  · rw [if_pos hg]
    have hga : (dlookup g a).isSome := by
      have := hg
      simp [memB] at this
      exact this.1
    rcases Option.isSome_iff_exists.mp hga with ⟨ma, hma⟩
    have hmand : (ma.map Prod.fst).Nodup := hwf.2 (a, ma) (mem_of_dlookup hma)
    rw [hma]
    show SymmL (if (dlookup ma b).isSome = true then
      eraseEdge (eraseEdge g a b) b a else g)
    by_cases hmab : (dlookup ma b).isSome
    · rw [if_pos hmab]
      by_cases hab : a = b
      · rw [← hab]
        have h1 : dlookup (eraseEdge g a a) a = some (derase ma a) :=
          eraseEdge_self hma a
        have hga' : dlookup (eraseEdge (eraseEdge g a a) a a) a =
            some (derase (derase ma a) a) := eraseEdge_self h1 a
        have hgo : ∀ v, v ≠ a →
            dlookup (eraseEdge (eraseEdge g a a) a a) v = dlookup g v := by
          intro v hv
          rw [eraseEdge_ne _ hv, eraseEdge_ne _ hv]
        have hdnd : ((derase ma a).map Prod.fst).Nodup := nodup_keys_derase hmand a
        intro x m y w' hx hyw
        by_cases hxa : x = a
        · rw [hxa] at hx ⊢
          rw [hga'] at hx
          have hmeq : m = derase (derase ma a) a := (Option.some.inj hx).symm
          rw [hmeq] at hyw
          by_cases hya : y = a
          · rw [hya, dlookup_derase_self hdnd] at hyw
            simp at hyw
          · rw [dlookup_derase_ne _ (fun he => hya he.symm),
              dlookup_derase_ne _ (fun he => hya he.symm)] at hyw
            rcases hsym a ma y w' hma hyw with ⟨m', hm', hmx⟩
            refine ⟨m', ?_, hmx⟩
            rw [hgo y hya]
            exact hm'
        · rw [hgo x hxa] at hx
          by_cases hya : y = a
          · rw [hya] at hyw ⊢
            rcases hsym x m a w' hx hyw with ⟨m', hm', hmx⟩
            have hm'eq : m' = ma := (Option.some.inj (hma.symm.trans hm')).symm
            refine ⟨derase (derase ma a) a, hga', ?_⟩
            rw [dlookup_derase_ne _ (fun he => hxa he.symm),
              dlookup_derase_ne _ (fun he => hxa he.symm)]
            rw [hm'eq] at hmx
            exact hmx
          · rcases hsym x m y w' hx hyw with ⟨m', hm', hmx⟩
            refine ⟨m', ?_, hmx⟩
            rw [hgo y hya]
            exact hm'
      · have hgb : (dlookup g b).isSome := by
          have := hg
          simp [memB] at this
          exact this.2
        rcases Option.isSome_iff_exists.mp hgb with ⟨mb, hmb⟩
        have hmbnd : (mb.map Prod.fst).Nodup := hwf.2 (b, mb) (mem_of_dlookup hmb)
        have h1a : dlookup (eraseEdge g a b) a = some (derase ma b) :=
          eraseEdge_self hma b
        have h1b : dlookup (eraseEdge g a b) b = some mb :=
          (eraseEdge_ne b (Ne.symm hab)).trans hmb
        have hga' : dlookup (eraseEdge (eraseEdge g a b) b a) a =
            some (derase ma b) := (eraseEdge_ne a hab).trans h1a
        have hgb' : dlookup (eraseEdge (eraseEdge g a b) b a) b =
            some (derase mb a) := eraseEdge_self h1b a
        have hgo : ∀ v, v ≠ a → v ≠ b →
            dlookup (eraseEdge (eraseEdge g a b) b a) v = dlookup g v := by
          intro v hva hvb
          rw [eraseEdge_ne a hvb, eraseEdge_ne b hva]
        intro x m y w' hx hyw
        by_cases hxa : x = a
        · rw [hxa] at hx ⊢
          rw [hga'] at hx
          have hmeq : m = derase ma b := (Option.some.inj hx).symm
          rw [hmeq] at hyw
          by_cases hyb : y = b
          · rw [hyb, dlookup_derase_self hmand] at hyw
            simp at hyw
          · rw [dlookup_derase_ne _ (fun he => hyb he.symm)] at hyw
            rcases hsym a ma y w' hma hyw with ⟨m', hm', hmx⟩
            by_cases hya : y = a
            · rw [hya] at hm' ⊢
              have hm'eq : m' = ma := (Option.some.inj (hma.symm.trans hm')).symm
              refine ⟨derase ma b, hga', ?_⟩
              rw [dlookup_derase_ne _ (Ne.symm hab)]
              rw [hm'eq] at hmx
              exact hmx
            · refine ⟨m', ?_, hmx⟩
              rw [hgo y hya hyb]
              exact hm'
        · by_cases hxb : x = b
          · rw [hxb] at hx ⊢
            rw [hgb'] at hx
            have hmeq : m = derase mb a := (Option.some.inj hx).symm
            rw [hmeq] at hyw
            by_cases hya : y = a
            · rw [hya, dlookup_derase_self hmbnd] at hyw
              simp at hyw
            · rw [dlookup_derase_ne _ (fun he => hya he.symm)] at hyw
              rcases hsym b mb y w' hmb hyw with ⟨m', hm', hmx⟩
              by_cases hyb : y = b
              · rw [hyb] at hm' ⊢
                have hm'eq : m' = mb := (Option.some.inj (hmb.symm.trans hm')).symm
                refine ⟨derase mb a, hgb', ?_⟩
                rw [dlookup_derase_ne _ hab]
                rw [hm'eq] at hmx
                exact hmx
              · refine ⟨m', ?_, hmx⟩
                rw [hgo y hya hyb]
                exact hm'
          · rw [hgo x hxa hxb] at hx
            rcases hsym x m y w' hx hyw with ⟨m', hm', hmx⟩
            by_cases hya : y = a
            · rw [hya] at hm' ⊢
              have hm'eq : m' = ma := (Option.some.inj (hma.symm.trans hm')).symm
              refine ⟨derase ma b, hga', ?_⟩
              rw [dlookup_derase_ne _ (fun he => hxb he.symm)]
              rw [hm'eq] at hmx
              exact hmx
            · by_cases hyb : y = b
              · rw [hyb] at hm' ⊢
                have hm'eq : m' = mb := (Option.some.inj (hmb.symm.trans hm')).symm
                refine ⟨derase mb a, hgb', ?_⟩
                rw [dlookup_derase_ne _ (fun he => hxa he.symm)]
                rw [hm'eq] at hmx
                exact hmx
              · refine ⟨m', ?_, hmx⟩
                rw [hgo y hya hyb]
                exact hm'
    · rw [if_neg hmab]
      exact hsym
  · rw [if_neg hg]
    exact hsym

theorem isSome_setEdge (g : Graph) (a b : Place) (w : ℚ) (v : Place) :
    (dlookup (setEdge g a b w) v).isSome = (dlookup g v).isSome := by
  cases hm : dlookup g a with
  | none =>
    unfold setEdge
    rw [hm]
  | some m =>
    by_cases hv : v = a
    · rw [hv, setEdge_self hm b w, hm]
      rfl
    · rw [setEdge_ne b w hv]

theorem isSome_add_route_core (g : Graph) (a b : Place) (w : ℚ) (v : Place) :
    (dlookup (add_route_core g a b w) v).isSome = (dlookup g v).isSome := by
  unfold add_route_core
  rw [isSome_setEdge, isSome_setEdge]

theorem symmL_add_place {g : Graph} (hwf : WFG g) (hsym : SymmL g)
    (id : Place) (routes : List (Place × ℚ)) :
    SymmL (add_place g id routes) := by
  unfold add_place
  by_cases hg : memB g id
  · rw [if_pos hg]
    exact hsym
  · rw [if_neg hg]
    have hid : ¬ (dlookup g id).isSome := by simpa [memB] using hg
    have hbase_wf : WFG (dinsert g id []) := by
      constructor
      · rw [keys_dinsert_absent _ hid]
        refine List.Nodup.append hwf.1 (List.nodup_singleton id) ?_
        intro x hx hx'
        simp at hx'
        rw [hx'] at hx
        exact hid ((dlookup_isSome_iff g id).mpr hx)
      · intro p hp
        rcases mem_dinsert hp with hp | hp
        · exact hwf.2 p hp
        · rw [hp]
          simp
    have hbase_sym : SymmL (dinsert g id []) := by
      intro x m y w' hx hyw
      by_cases hx_id : x = id
      · rw [hx_id, dlookup_dinsert_self] at hx
        have : m = [] := (Option.some.inj hx).symm
        rw [this] at hyw
        simp [dlookup] at hyw
      · rw [dlookup_dinsert_ne _ _ (fun he => hx_id he.symm)] at hx
        rcases hsym x m y w' hx hyw with ⟨m', hm', hmx⟩
        have hy_id : y ≠ id := by
          intro he
          rw [he] at hm'
          exact hid (by simp [hm'])
        refine ⟨m', ?_, hmx⟩
        rw [dlookup_dinsert_ne _ _ (fun he => hy_id he.symm)]
        exact hm'
    have hbase_mem : (dlookup (dinsert g id []) id).isSome := by
      rw [dlookup_dinsert_self]
      rfl
    revert hbase_wf hbase_sym hbase_mem
    generalize dinsert g id [] = g0
    induction routes generalizing g0 with
    | nil => intro _ h2 _; exact h2
    | cons nw rest ih =>
      intro h1 h2 h3
      simp only [List.foldl_cons]
      by_cases hmem : memB g0 nw.1
      · rw [if_pos hmem]
        refine ih _ (WF_add_route_core h1 id nw.1 nw.2)
          (symmL_add_route_core h2 h3 (by simpa [memB] using hmem) nw.2) ?_
        rw [isSome_add_route_core]
        exact h3
      · rw [if_neg hmem]
        exact ih _ h1 h2 h3

theorem symmL_applyOp {g : Graph} (hwf : WFG g) (hsym : SymmL g) (op : Op) :
    SymmL (applyOp g op) := by
  cases op with
  | addPlaceOp id routes => exact symmL_add_place hwf hsym id routes
  | addRouteOp a b w =>
    show SymmL (add_route g a b w)
    unfold add_route
    by_cases hg : memB g a && memB g b
    · rw [if_pos hg]
      have hab : (dlookup g a).isSome ∧ (dlookup g b).isSome := by
        simpa [memB] using hg
      exact symmL_add_route_core hsym hab.1 hab.2 w
    · rw [if_neg hg]
      exact hsym
  | removeRouteOp a b => exact symmL_remove_route hwf hsym a b
  | removePlaceOp id => exact symmL_remove_place hwf hsym id

theorem WF_applyOp {g : Graph} (hwf : WFG g) (op : Op) :
    WFG (applyOp g op) := by
  cases op with
  | addPlaceOp id routes => exact WF_add_place hwf id routes
  | addRouteOp a b w => exact WF_add_route hwf a b w
  | removeRouteOp a b => exact WF_remove_route hwf a b
  | removePlaceOp id => exact WF_remove_place hwf id

/-! ## Assembled results about the engine -/

theorem build_exists {g : Graph} {s : Place} {P : List Place} {σ : DState}
    (hI : InvC g s P σ) (hq : σ.queue = []) {t : Place}
    (ht : (dlookup g t).isSome) :
    ∃ sp, buildLoop σ.prev (walkFuel g) (some t) [] = .ok sp := by
  rcases Option.isSome_iff_exists.mp ((hI.kd t).mpr ht) with ⟨dt, hdt⟩
  rcases eq_or_ne dt ⊤ with htop | hne
  · rw [htop] at hdt
    have hpr := prev_none_of_top hI ht hdt
    exact ⟨[t], buildLoop_none hpr g.length⟩
  · rcases WithTop.ne_top_iff_exists.mp hne with ⟨q, hq'⟩
    have htP : t ∈ P := by
      rcases hI.rwit t q (by rw [← hq'] at hdt; exact hdt) with h | h
      · exact h
      · rw [hq] at h
        simp at h
    have hidx : t ∈ P → P.indexOf t + 1 ≤ walkFuel g := by
      intro _
      have h1 : P.indexOf t < P.length := List.indexOf_lt_length.mpr htP
      have h2 := P_length_le hI
      unfold walkFuel
      omega
    exact build_ok hI hq (walkFuel g) t [] ht hidx (by unfold walkFuel; omega)

theorem dijkstra_unreachable_core (g : Graph) (s t : Place) (hwf : WFG g)
    (hcl : ClosedB g) (hnn : NonnegB g) (hs : memB g s) (ht : memB g t)
    (hur : t ∉ reachSet g s) :
    dijkstra_shortest_path g s t = .ok ([t], (⊤ : WithTop ℚ)) := by
  rcases dijkstra_run hwf hcl hnn hs with ⟨σ, P, hrun, hI, hR, hqe⟩
  have hdt := dist_top_of_unreach hI hcl hnn hs ht hur
  have hpr := prev_none_of_top hI ht hdt
  have hb : buildLoop σ.prev (walkFuel g) (some t) [] = .ok [t] :=
    buildLoop_none hpr g.length
  have h := dijkstra_eval hrun hb hdt
  simpa using h

/-! ## The claims -/

theorem mainJK_eval :
    dijkstra_shortest_path mainGraph "Jauhar" "Korangi" =
      .ok (["Jauhar", "Malir", "Korangi"], ((11 : ℚ) : WithTop ℚ)) := by
  with_unfolding_all rfl

theorem mainJD_eval :
    dijkstra_shortest_path mainGraph "Jauhar" "Defence" =
      .ok (["Jauhar", "Malir", "Saddar", "Clifton", "Defence"],
        ((25 : ℚ) : WithTop ℚ)) := by
  with_unfolding_all rfl

/-- Claim C2, counterexample: on the seed graph the query from Jauhar to
Korangi does not return the path [Jauhar, Gulshan, Malir, Korangi] with
distance 12 claimed by the spec. -/
theorem claim2_counterexample :
    dijkstra_shortest_path mainGraph "Jauhar" "Korangi" ≠
      .ok (["Jauhar", "Gulshan", "Malir", "Korangi"], ((12 : ℚ) : WithTop ℚ)) := by
  rw [mainJK_eval]
  intro hcon
  have h := (Prod.mk.injEq _ _ _ _).mp (Except.ok.inj hcon)
  exact absurd h.1 (by decide)

/-- Claim C2, amended: on the seed graph the query from Jauhar to Korangi
returns the path [Jauhar, Malir, Korangi] with distance 11
(7 + 4, cheaper than 5 + 3 + 4 = 12 through Gulshan). -/
theorem claim2_amended_jauhar_korangi :
    dijkstra_shortest_path mainGraph "Jauhar" "Korangi" =
      .ok (["Jauhar", "Malir", "Korangi"], ((11 : ℚ) : WithTop ℚ)) :=
  mainJK_eval

/-- Claim C3, counterexample: on the seed graph the query from Jauhar to
Defence does not return distance 21, nor the path
[Jauhar, Gulshan, Malir, Saddar, Clifton, Defence] claimed by the spec. -/
theorem claim3_counterexample :
    dijkstra_shortest_path mainGraph "Jauhar" "Defence" ≠
      .ok (["Jauhar", "Gulshan", "Malir", "Saddar", "Clifton", "Defence"],
        ((21 : ℚ) : WithTop ℚ)) := by
  rw [mainJD_eval]
  intro hcon
  have h := (Prod.mk.injEq _ _ _ _).mp (Except.ok.inj hcon)
  exact absurd h.1 (by decide)

/-- Claim C3, amended: on the seed graph the query from Jauhar to Defence
returns the path [Jauhar, Malir, Saddar, Clifton, Defence] with distance
25 (7 + 8 + 6 + 4, cheaper than 5 + 3 + 8 + 6 + 4 = 26 through Gulshan). -/
theorem claim3_amended_jauhar_defence :
    dijkstra_shortest_path mainGraph "Jauhar" "Defence" =
      .ok (["Jauhar", "Malir", "Saddar", "Clifton", "Defence"],
        ((25 : ℚ) : WithTop ℚ)) :=
  mainJD_eval

/-- Claim C7: on a well-formed graph satisfying the store invariants,
the query from a present place x to itself returns the single-element
path [x] and distance 0. -/
theorem claim7_reflexive_query (g : Graph) (x : Place) (hwf : WFG g)
    (hsym : SymmB g) (hcl : ClosedB g) (hnn : NonnegB g) (hx : memB g x) :
    dijkstra_shortest_path g x x = .ok ([x], ((0 : ℚ) : WithTop ℚ)) := by
  have hx' : (dlookup g x).isSome := hx
  rcases dijkstra_run hwf hcl hnn hx' with ⟨σ, P, hrun, hI, hR, hqe⟩
  have hb : buildLoop σ.prev (walkFuel g) (some x) [] = .ok [x] :=
    buildLoop_none hI.p0 g.length
  have h := dijkstra_eval hrun hb hI.s0
  simpa using h

theorem claim7_witness :
    dijkstra_shortest_path mainGraph "Gulshan" "Gulshan" =
      .ok (["Gulshan"], ((0 : ℚ) : WithTop ℚ)) :=
  claim7_reflexive_query mainGraph "Gulshan" (by decide) (by decide)
    (by decide) (by decide) (by decide)

/-- Claim C6, counterexample: on the isolated-place graph the query from
A to the unreachable Z succeeds with the nonempty path [Z] (together with
infinite distance), so the result does not carry an empty path as the
spec describes for the NoPath outcome. -/
theorem claim6_counterexample :
    memB isolatedGraph "A" ∧ memB isolatedGraph "Z" ∧
      ("Z" ∉ reachSet isolatedGraph "A") ∧
      dijkstra_shortest_path isolatedGraph "A" "Z" =
        .ok (["Z"], (⊤ : WithTop ℚ)) ∧
      (["Z"] : List Place) ≠ [] := by
  refine ⟨by decide, by decide, by decide, ?_, by decide⟩
  with_unfolding_all rfl

/-- Claim C6, amended: on a graph satisfying the store invariants, a
query between present places whose destination is unreachable from the
source returns a successful result with infinite distance — but the path
it carries is the singleton [destination], not an empty path. -/
theorem claim6_amended_unreachable_result (g : Graph) (s t : Place)
    (hwf : WFG g) (hcl : ClosedB g) (hnn : NonnegB g)
    (hs : memB g s) (ht : memB g t) (hur : t ∉ reachSet g s) :
    dijkstra_shortest_path g s t = .ok ([t], (⊤ : WithTop ℚ)) :=
  dijkstra_unreachable_core g s t hwf hcl hnn hs ht hur

theorem claim6_witness :
    dijkstra_shortest_path isolatedGraph "A" "Z" =
      .ok (["Z"], (⊤ : WithTop ℚ)) :=
  claim6_amended_unreachable_result isolatedGraph "A" "Z" (by decide)
    (by decide) (by decide) (by decide) (by decide) (by decide)

/-- Claim C10: on a graph satisfying the store invariants, a query
between distinct present places whose destination is unreachable from
the source returns exactly the single-element path [destination]
together with infinite distance. -/
theorem claim10_unreachable_singleton (g : Graph) (s t : Place)
    (hwf : WFG g) (hcl : ClosedB g) (hnn : NonnegB g)
    (hs : memB g s) (ht : memB g t) (hne : s ≠ t)
    (hur : t ∉ reachSet g s) :
    dijkstra_shortest_path g s t = .ok ([t], (⊤ : WithTop ℚ)) :=
  dijkstra_unreachable_core g s t hwf hcl hnn hs ht hur

theorem claim10_witness :
    dijkstra_shortest_path isolatedGraph "B" "Z" =
      .ok (["Z"], (⊤ : WithTop ℚ)) :=
  claim10_unreachable_singleton isolatedGraph "B" "Z" (by decide)
    (by decide) (by decide) (by decide) (by decide) (by decide) (by decide)

/-- Claim C8, counterexample: non-negative weights and presence of both
query endpoints alone do not make the query run to completion — on a
graph whose neighbor map mentions a place that is not a top-level key,
the queue loop aborts with a key error instead of completing. -/
theorem claim8_counterexample :
    NonnegB [("A", [("B", 1)])] ∧ memB [("A", [("B", 1)])] "A" ∧
      dijkstra_shortest_path [("A", [("B", 1)])] "A" "A" =
        .error .keyError := by
  refine ⟨by decide, by decide, ?_⟩
  with_unfolding_all rfl

/-- Claim C8, amended: on a finite well-formed graph with non-negative
weights and closed neighbor references, a query between present places
terminates: the queue loop empties its queue and the reconstruction loop
finishes, within the a-priori fuel bounds, producing a result. -/
theorem claim8_amended_terminates (g : Graph) (s t : Place) (hwf : WFG g)
    (hcl : ClosedB g) (hnn : NonnegB g) (hs : memB g s) (ht : memB g t) :
    ∃ r, dijkstra_shortest_path g s t = .ok r := by
  have hs' : (dlookup g s).isSome := hs
  have ht' : (dlookup g t).isSome := ht
  rcases dijkstra_run hwf hcl hnn hs' with ⟨σ, P, hrun, hI, hR, hqe⟩
  rcases build_exists hI hqe ht' with ⟨sp, hb⟩
  rcases Option.isSome_iff_exists.mp ((hI.kd t).mpr ht') with ⟨dt, hdt⟩
  exact ⟨(sp.reverse, dt), dijkstra_eval hrun hb hdt⟩

theorem claim8_witness :
    ∃ r, dijkstra_shortest_path mainGraph "Defence" "Jauhar" = .ok r :=
  claim8_amended_terminates mainGraph "Defence" "Jauhar" (by decide)
    (by decide) (by decide) (by decide) (by decide)

/-- Claim C9: on a graph with closed neighbor references whose two query
endpoints are keys, the query never fails with a key error — every
lookup into the graph, the distance map and the predecessor map is on a
present key. -/
theorem claim9_no_key_error (g : Graph) (s t : Place) (hcl : ClosedB g)
    (hs : memB g s) (ht : memB g t) :
    dijkstra_shortest_path g s t ≠ .error .keyError := by
  have hs' : (dlookup g s).isSome := hs
  have ht' : (dlookup g t).isSome := ht
  have h0 : Inv0 g (initState g s) := inv0_of_invC (init_inv hs').1
  unfold dijkstra_shortest_path
  rcases dloop_inv0 hcl (dfuel g) (initState g s) h0 with ⟨σ, hrun, hσ⟩ | hrun
  · rw [hrun]
    dsimp only
    rcases buildLoop_no_keyError hσ.2.2.1 hσ.2.2.2 (walkFuel g) (some t) []
        (fun v hv => by rw [← Option.some.inj hv]; exact ht') with ⟨sp, hb⟩ | hb
    · rw [hb]
      dsimp only
      rcases Option.isSome_iff_exists.mp ((hσ.2.1 t).mpr ht') with ⟨dt, hdt⟩
      rw [hdt]
      simp
    · rw [hb]
      simp
  · rw [hrun]
    simp

theorem claim9_witness :
    dijkstra_shortest_path isolatedGraph "A" "Z" ≠ .error .keyError :=
  claim9_no_key_error isolatedGraph "A" "Z" (by decide) (by decide) (by decide)

/-- Claim C4: every mutation operation of the graph store — adding a
place with its routes, adding or updating a route, removing a route,
removing a place — maps a well-formed symmetric graph to a symmetric
graph. -/
theorem claim4_symmetry_preserved (g : Graph) (op : Op) (hwf : WFG g)
    (hsym : SymmB g) : SymmB (applyOp g op) :=
  symmB_of_symmL (WF_applyOp hwf op) (symmL_applyOp hwf (symmL_of_symmB hsym) op)

theorem claim4_witness :
    SymmB (applyOp mainGraph (Op.addRouteOp "Jauhar" "Saddar" 2)) :=
  claim4_symmetry_preserved mainGraph (Op.addRouteOp "Jauhar" "Saddar" 2)
    (by decide) (by decide)

/-- Claim C5, counterexample: the add-route operation performs no weight
validation — called with the negative weight -1 on two distinct present
places, it stores the edge instead of failing and leaving the graph
unchanged. -/
theorem claim5_counterexample :
    memB isolatedGraph "A" ∧ memB isolatedGraph "Z" ∧
      ("A" : Place) ≠ "Z" ∧ (-1 : ℚ) < 0 ∧
      dlookup (add_route isolatedGraph "A" "Z" (-1)) "A" =
        some [("B", 1), ("Z", -1)] := by
  refine ⟨by decide, by decide, by decide, by norm_num, ?_⟩
  with_unfolding_all rfl

/-- Claim C5, amended: for distinct present places the add-route
operation stores the given weight in both directions unconditionally —
for every rational weight, negative ones included; no InvalidWeight
rejection exists in the code. -/
theorem claim5_amended_stores_any_weight (g : Graph) (a b : Place) (w : ℚ)
    (ha : memB g a) (hb : memB g b) (hab : a ≠ b) :
    ∃ ma mb, dlookup (add_route g a b w) a = some ma ∧
      dlookup ma b = some w ∧
      dlookup (add_route g a b w) b = some mb ∧ dlookup mb a = some w := by
  have ha' : (dlookup g a).isSome := ha
  have hb' : (dlookup g b).isSome := hb
  rcases Option.isSome_iff_exists.mp ha' with ⟨na, hna⟩
  rcases Option.isSome_iff_exists.mp hb' with ⟨nb, hnb⟩
  have hcond : (memB g a && memB g b) = true := by
    rw [Bool.and_eq_true]
    exact ⟨ha, hb⟩
  have hmut : add_route g a b w = add_route_core g a b w := by
    unfold add_route
    rw [if_pos hcond]
  have h1a : dlookup (setEdge g a b w) a = some (dinsert na b w) :=
    setEdge_self hna b w
  have h1b : dlookup (setEdge g a b w) b = some nb :=
    (setEdge_ne b w (Ne.symm hab)).trans hnb
  refine ⟨dinsert na b w, dinsert nb a w, ?_, dlookup_dinsert_self _ _ _,
    ?_, dlookup_dinsert_self _ _ _⟩
  · rw [hmut]
    unfold add_route_core
    rw [setEdge_ne a w hab]
    exact h1a
  · rw [hmut]
    unfold add_route_core
    exact setEdge_self h1b a w

theorem claim5_witness :
    ∃ ma mb,
      dlookup (add_route isolatedGraph "A" "Z" (-1)) "A" = some ma ∧
      dlookup ma "Z" = some (-1 : ℚ) ∧
      dlookup (add_route isolatedGraph "A" "Z" (-1)) "Z" = some mb ∧
      dlookup mb "A" = some (-1 : ℚ) :=
  claim5_amended_stores_any_weight isolatedGraph "A" "Z" (-1) (by decide)
    (by decide) (by decide)

/-- Claim C1: on a graph satisfying the store invariants (well-formed,
symmetric, closed neighbor references, non-negative weights), for
present places source and destination with the destination reachable
from the source, the query succeeds and the distance it returns is the
least total weight over all simple paths from source to destination. -/
theorem claim1_min_simple_path (g : Graph) (s t : Place) (hwf : WFG g)
    (hsym : SymmB g) (hcl : ClosedB g) (hnn : NonnegB g)
    (hs : memB g s) (ht : memB g t)
    (hreach : ∃ (p : List Place) (w : ℚ),
      p.head? = some s ∧ p.getLast? = some t ∧ pathW g p = some w) :
    ∃ (pth : List Place) (q : ℚ),
      dijkstra_shortest_path g s t = .ok (pth, ((q : ℚ) : WithTop ℚ)) ∧
      IsLeast {w : ℚ | ∃ p, SimplePath g s t p w} q := by
  have hs' : (dlookup g s).isSome := hs
  have ht' : (dlookup g t).isSome := ht
  rcases dijkstra_run hwf hcl hnn hs' with ⟨σ, P, hrun, hI, hR, hqe⟩
  rcases Option.isSome_iff_exists.mp ((hI.kd t).mpr ht') with ⟨dt, hdt⟩
  rcases hreach with ⟨p₀, w₀, hh₀, hl₀, hpw₀⟩
  have hub := dist_le_path hI hR hqe hcl p₀ s t w₀ 0 dt hh₀ hl₀ hpw₀ hI.s0 hdt
  have hfin : dt ≠ ⊤ := by
    intro he
    rw [he] at hub
    have h2 := top_le_iff.mp hub
    have h3 : ((0 : ℚ) : WithTop ℚ) + ((w₀ : ℚ) : WithTop ℚ) = ⊤ := by
      rw [WithTop.coe_zero]
      exact h2
    rw [← WithTop.coe_add] at h3
    exact WithTop.coe_ne_top h3
  rcases WithTop.ne_top_iff_exists.mp hfin with ⟨q, hq⟩
  have hdq : dlookup σ.dist t = some ((q : ℚ) : WithTop ℚ) := by
    rw [hq]
    exact hdt
  rcases hI.ach t q hdq with ⟨p₁, hh₁, hl₁, hpw₁⟩
  rcases path_simplify hnn hpw₁ hh₁ hl₁ with ⟨p₂, w₂, hnd₂, hh₂, hl₂, hpw₂, hle₂⟩
  have hlow : ∀ (p' : List Place) (w' : ℚ), p'.head? = some s →
      p'.getLast? = some t → pathW g p' = some w' → q ≤ w' := by
    intro p' w' hh' hl' hpw'
    have h := dist_le_path hI hR hqe hcl p' s t w' 0 dt hh' hl' hpw' hI.s0 hdt
    rw [← hq] at h
    have h2 : ((q : ℚ) : WithTop ℚ) ≤ ((0 + w' : ℚ) : WithTop ℚ) := by
      rw [WithTop.coe_add, WithTop.coe_zero]
      exact h
    have h3 : q ≤ 0 + w' := WithTop.coe_le_coe.mp h2
    rw [zero_add] at h3
    exact h3
  have hq₂ : w₂ = q := le_antisymm hle₂ (hlow p₂ w₂ hh₂ hl₂ hpw₂)
  rcases build_exists hI hqe ht' with ⟨sp, hb⟩
  refine ⟨sp.reverse, q, dijkstra_eval hrun hb hdq,
    ⟨p₂, hh₂, hl₂, hnd₂, ?_⟩, ?_⟩
  · rw [← hq₂]
    exact hpw₂
  · intro w' hw'
    rcases hw' with ⟨p', hh', hl', hnd', hpw'⟩
    exact hlow p' w' hh' hl' hpw'

theorem claim1_witness :
    ∃ (pth : List Place) (q : ℚ),
      dijkstra_shortest_path mainGraph "Jauhar" "Korangi" =
        .ok (pth, ((q : ℚ) : WithTop ℚ)) ∧
      IsLeast {w : ℚ | ∃ p, SimplePath mainGraph "Jauhar" "Korangi" p w} q :=
  claim1_min_simple_path mainGraph "Jauhar" "Korangi" (by decide) (by decide)
    (by decide) (by decide) (by decide) (by decide)
    ⟨["Jauhar", "Malir", "Korangi"], 11, rfl, rfl, by with_unfolding_all rfl⟩

/-- Claim C10, counterexample: over every graph, as the claim
quantifies, the property fails — on a graph whose neighbor map mentions
a dangling place C, the query from A to the present, unreachable T
raises a key error instead of returning the path [T] with infinite
distance. -/
theorem claim10_counterexample :
    memB ([("A", [("C", 1)]), ("T", [])] : Graph) "A" ∧
      memB ([("A", [("C", 1)]), ("T", [])] : Graph) "T" ∧
      ("A" : Place) ≠ "T" ∧
      ("T" ∉ reachSet ([("A", [("C", 1)]), ("T", [])] : Graph) "A") ∧
      dijkstra_shortest_path ([("A", [("C", 1)]), ("T", [])] : Graph) "A" "T" =
        .error .keyError := by
  refine ⟨by decide, by decide, by decide, by decide, ?_⟩
  with_unfolding_all rfl
